import Mathlib

/-!
# Verification of the ATM repository's batch/checkpoint orchestrator and JSON recovery engine

Shallow embedding of `src/ai_test_cases/src/agents/test_case_writer.py`
(`_improve_test_cases_concurrent`, `process_improvement_batch`, `improve_test_cases`,
`_generate_feature_test_cases_concurrent`), `src/ai_test_cases/src/utils/json_parser.py`
(`UnifiedJSONParser`) and `src/ai_test_cases/src/utils/agent_io.py` (`AgentIO`).

Modelling conventions:
* Python lists become Lean `List`; work items are abstracted by a type parameter.
* The external model round-trip (`_improve_with_llm`'s LLM call, retries and
  validation) is abstracted as a function `llm : List A -> Option (List A)`;
  `none` models the case where the call raised or no valid cases were obtained,
  `some r` models a successful return of the validated cases `r`.
* Exceptions are modelled with `Except`: code the source wraps in
  `try/except` is a `pyTry` application; code outside any `try` propagates.
* Thread-pool completion order is modelled by an explicit list `order` of batch
  indices, the order in which `concurrent.futures.as_completed` yields futures.
* Checkpoint writes are modelled by their control-flow effect (raise or not);
  the checkpoint store itself is modelled separately for `AgentIO`.
-/

/-- Python `try: x except Exception: h` over the `Except` exception model. -/
def pyTry {E A : Type} (x : Except E A) (h : E → Except E A) : Except E A :=
  match x with
  | .ok a => .ok a
  | .error e => h e

/-- `[items[i:i+bs] for i in range(0, total, bs)]`, fuelled so that the
slicing is executable for every `bs`; for `bs = 0` Python raises
(`range` step 0), so callers always pass `bs ≥ 1` (guaranteed by
`max(1, _)` in the source) and the fuel `l.length` then suffices. -/
def chunkListAux {A : Type} (fuel bs : Nat) (l : List A) : List (List A) :=
  match fuel, l with
  | 0, _ => []
  | _, [] => []
  | f + 1, x :: xs => ((x :: xs).take bs) :: chunkListAux f bs ((x :: xs).drop bs)

/-- Contiguous slicing of a list into chunks of size `bs`
(the Python list comprehension `[items[i:i+bs] for i in range(0, total, bs)]`). -/
def chunkList {A : Type} (bs : Nat) (l : List A) : List (List A) :=
  chunkListAux l.length bs l

/-- Partitioning used by `_improve_test_cases_concurrent` (lines 1133-1143):
guard on empty input, `num_batches = min(total, workers*2)`,
`batch_size = max(1, total // num_batches)`, contiguous slices. -/
def improveBatchesFor {A : Type} (testCases : List A) (workers : Nat) : List (List A) :=
  if testCases.isEmpty then []
  else
    chunkList (max 1 (testCases.length / (min testCases.length (workers * 2)))) testCases

/-- Partitioning used by `_generate_feature_test_cases_concurrent`
(lines 909-921): the same guard and formulas over `list(feature_groups.items())`. -/
def featureBatchesFor {A : Type} (featureItems : List A) (workers : Nat) : List (List A) :=
  if featureItems.isEmpty then []
  else
    chunkList (max 1 (featureItems.length / (min featureItems.length (workers * 2)))) featureItems

/-- `_improve_with_llm(batch_cases, feedback)` (lines 1208-1311): the body is one
big `try/except`; every exception and every exhausted-retries path returns the
original `test_cases` argument, a successful attempt returns the validated
cases.  The LLM round-trip, retry loop and per-case validation are abstracted
by `llm`; `llm batch = none` models "raised or produced no usable cases". -/
def improveWithLlm {A : Type} (llm : List A → Option (List A)) (batch : List A) : List A :=
  match llm batch with
  | none => batch
  | some r => r

/-- `process_improvement_batch(batch_index, batch_cases)` (lines 1152-1180):
improve with the LLM, fall back to the original batch when the result is
falsy, then save the batch checkpoint inside `try/except` (the save outcome,
`batchSaveFails`, is swallowed and does not influence the returned value). -/
def processImprovementBatch {A : Type} (llm : List A → Option (List A))
    (batchSaveFails : Bool) (batchIndex : Nat) (batchCases : List A) : List A :=
  let improved := improveWithLlm llm batchCases
  let improved := if improved.isEmpty then batchCases else improved
  -- try: agent_io.save_result(f"test_case_writer_improved_batch_{batchIndex+1}", ...)
  -- except Exception: log  -- the outcome `batchSaveFails` is discarded either way
  improved

/-- The `as_completed` collection loop of `_improve_test_cases_concurrent`
(lines 1183-1197): `batch_results` starts as `[None] * len(batches)` and each
completed future stores its result at its own batch index, in completion
order `order`. -/
def collectBatchResults {A : Type} (results : List (List A)) (order : List Nat) :
    List (Option (List A)) :=
  order.foldl (fun slots idx => slots.set idx (some (results.getD idx [])))
    (List.replicate results.length none)

/-- The merge loop of `_improve_test_cases_concurrent` (lines 1199-1203):
`for batch_result in batch_results: if batch_result: all.extend(batch_result)`;
both `None` and the empty list are falsy and skipped. -/
def mergeBatchResults {A : Type} (slots : List (Option (List A))) : List A :=
  slots.foldl
    (fun acc s =>
      match s with
      | none => acc
      | some r => if r.isEmpty then acc else acc ++ r) []

/-- `enumerate(batches)` paired with a per-batch function, as in
`{executor.submit(process_improvement_batch, i, batch): i for i, batch in enumerate(batches)}`. -/
def mapWithIndex {A B : Type} (f : Nat → A → B) : Nat → List A → List B
  | _, [] => []
  | i, x :: xs => f i x :: mapWithIndex f (i + 1) xs

/-- `_improve_test_cases_concurrent(test_cases, ...)` (lines 1128-1206) with the
thread-pool completion order made explicit as `order`. -/
def improveConcurrentOrd {A : Type} (llm : List A → Option (List A))
    (batchSaveFails : Bool) (testCases : List A) (workers : Nat) (order : List Nat) :
    List A :=
  if testCases.isEmpty then []
  else
    let batches := improveBatchesFor testCases workers
    let results := mapWithIndex (processImprovementBatch llm batchSaveFails) 0 batches
    mergeBatchResults (collectBatchResults results order)

/-- `_improve_test_cases_concurrent` with the canonical completion order
(every batch completes; the set of completed indices is always
`{0, ..., len(batches)-1}` because the `with` block joins all futures). -/
def improveConcurrent {A : Type} (llm : List A → Option (List A))
    (batchSaveFails : Bool) (testCases : List A) (workers : Nat) : List A :=
  improveConcurrentOrd llm batchSaveFails testCases workers
    (List.range (improveBatchesFor testCases workers).length)

/-- The sequential branch of `improve_test_cases` (lines 1077-1110):
chunks of size `max(1, len(test_cases) // 10)`, processed strictly in order,
falling back to the original batch when the LLM result is falsy; the
per-batch checkpoint save is inside `try/except` and its outcome is
discarded. -/
def improveSequential {A : Type} (llm : List A → Option (List A))
    (testCases : List A) : List A :=
  (chunkList (max 1 (testCases.length / 10)) testCases).foldl
    (fun acc b =>
      let r := improveWithLlm llm b
      if r.isEmpty then acc ++ b else acc ++ r) []

/-- `improve_test_cases(test_cases, qa_feedback)` (lines 1039-1126).  The body
is wrapped in `try/except Exception: return test_cases`.  Feedback
normalisation (lines 1050-1069) is modelled as succeeding, which it does for
every well-typed feedback value of the kinds the pipeline passes; the claims
quantify only over the test cases, worker budget and persistence behaviour.
`stageSaveFails` models whether `agent_io.save_result("test_case_writer", ...)`
(line 1119, not individually guarded; `save_result` re-raises on failure)
raises. -/
def improveTestCasesE {A : Type} (llm : List A → Option (List A))
    (stageSaveFails : Bool) (testCases : List A) (workers : Nat) :
    Except String (List A) :=
  pyTry
    (if testCases.isEmpty then .ok testCases
     else
       let allImproved :=
         if 1 < workers then improveConcurrent llm false testCases workers
         else improveSequential llm testCases
       if allImproved.isEmpty then .ok testCases
       else if stageSaveFails then .error "save_result raised"
       else .ok allImproved)
    (fun _ => .ok testCases)

-- ## Helper lemmas on chunking

/-- Worker used in the C1 counterexample: succeeds on every batch, returning a
single case for the batch `[0, 1]` and the batch itself otherwise. -/
def llmShrink : List Nat → Option (List Nat) :=
  fun b => if b = [0, 1] then some [100] else some b

/-- Worker used in the C9 counterexample: improves every case by adding 100. -/
def llmImprove : List Nat → Option (List Nat) :=
  fun b => some (b.map (fun x => x + 100))

/-- JSON-compatible values, the payload of `StructuredRecord`s and checkpoint
contents.  Numbers are modelled as integers (floats are outside the model);
objects are association lists in document order. -/
inductive Json where
  | null : Json
  | bool (b : Bool) : Json
  | num (n : Int) : Json
  | str (s : String) : Json
  | arr (elems : List Json) : Json
  | obj (members : List (String × Json)) : Json

/-- JSON whitespace as skipped by Python's `json` decoder (`' \t\n\r'`). -/
def isJsonWs (c : Char) : Bool :=
  c = ' ' || c = '\t' || c = '\n' || c = '\r'

/-- Skip JSON whitespace. -/
def skipWs (cs : List Char) : List Char :=
  cs.dropWhile isJsonWs

/-- Decimal digit character for `d < 10`. -/
def digitCharOf (d : Nat) : Char :=
  Char.ofNat (48 + d)

/-- Lower-case hexadecimal digit character for `n < 16`. -/
def hexCharOf (n : Nat) : Char :=
  if n < 10 then Char.ofNat (48 + n) else Char.ofNat (87 + n)

/-- Value of a hexadecimal digit character. -/
def hexVal (c : Char) : Option Nat :=
  if '0' ≤ c ∧ c ≤ '9' then some (c.toNat - 48)
  else if 'a' ≤ c ∧ c ≤ 'f' then some (c.toNat - 87)
  else if 'A' ≤ c ∧ c ≤ 'F' then some (c.toNat - 55)
  else none

/-- Decimal rendering of a natural number (`str(n)` for `n >= 0`). -/
def renderNatChars (n : Nat) : List Char :=
  if n = 0 then ['0'] else ((Nat.digits 10 n).reverse.map digitCharOf)

/-- Decimal rendering of an integer (`str(n)`), as emitted by `json.dump`. -/
def renderIntChars (i : Int) : List Char :=
  if i < 0 then '-' :: renderNatChars i.natAbs else renderNatChars i.natAbs

/-- String-body escaping performed by `json.dump(..., ensure_ascii=False)`:
backslash and double quote are backslash-escaped, the common control
characters use their short escapes, the remaining C0 control characters use
`\u00XX`, and every other character is written as itself. -/
def escapeChar (c : Char) : List Char :=
  if c = '"' then ['\\', '"']
  else if c = '\\' then ['\\', '\\']
  else if c = '\n' then ['\\', 'n']
  else if c = '\t' then ['\\', 't']
  else if c = '\r' then ['\\', 'r']
  else if c = Char.ofNat 8 then ['\\', 'b']
  else if c = Char.ofNat 12 then ['\\', 'f']
  else if c.toNat < 32 then
    ['\\', 'u', '0', '0', hexCharOf (c.toNat / 16), hexCharOf (c.toNat % 16)]
  else [c]

/-- Rendering of a JSON string literal including the surrounding quotes. -/
def renderStringChars (s : String) : List Char :=
  '"' :: (s.data.flatMap escapeChar) ++ ['"']

mutual

/-- Model of `json.dump(v, ...)`'s produced text as a character list.  The
`indent=2` argument of the source only inserts inter-token whitespace, which
`json.load` skips; the model renders with the standard one-space separators
(`", "` / `": "`), which parses identically. -/
def renderJson : Json → List Char
  | .null => ['n', 'u', 'l', 'l']
  | .bool false => ['f', 'a', 'l', 's', 'e']
  | .bool true => ['t', 'r', 'u', 'e']
  | .num i => renderIntChars i
  | .str s => renderStringChars s
  | .arr [] => ['[', ']']
  | .arr (e :: tl) => '[' :: (renderJson e ++ renderArrTail tl) ++ [']']
  | .obj [] => ['{', '}']
  | .obj (m :: tl) => '{' :: (renderMember m ++ renderObjTail tl) ++ ['}']

/-- One object member `"key": value`. -/
def renderMember : String × Json → List Char
  | (k, v) => renderStringChars k ++ ':' :: ' ' :: renderJson v

/-- Remaining array elements, each preceded by `", "`. -/
def renderArrTail : List Json → List Char
  | [] => []
  | e :: tl => ',' :: ' ' :: renderJson e ++ renderArrTail tl

/-- Remaining object members, each preceded by `", "`. -/
def renderObjTail : List (String × Json) → List Char
  | [] => []
  | m :: tl => ',' :: ' ' :: renderMember m ++ renderObjTail tl

end

mutual

/-- Fuel-indexed size of a value, dominating the fuel the decoder needs. -/
def sizeJ : Json → Nat
  | .null => 1
  | .bool _ => 1
  | .num _ => 1
  | .str _ => 1
  | .arr es => 2 + sizeArr es
  | .obj ms => 2 + sizeObj ms

def sizeArr : List Json → Nat
  | [] => 0
  | e :: tl => 1 + sizeJ e + sizeArr tl

def sizeObj : List (String × Json) → Nat
  | [] => 0
  | m :: tl => 1 + sizeJ m.2 + sizeObj tl

end

/-- Decoder for the body of a JSON string literal (after the opening quote),
following Python's strict decoder: raw control characters are rejected, the
eight short escapes and `\uXXXX` are recognised, everything else after a
backslash is an error.  Returns the decoded characters and the input after
the closing quote. -/
def pStrChars : List Char → Option (List Char × List Char)
  | [] => none
  | '"' :: rest => some ([], rest)
  | '\\' :: 'u' :: h1 :: h2 :: h3 :: h4 :: rest =>
    match hexVal h1, hexVal h2, hexVal h3, hexVal h4 with
    | some v1, some v2, some v3, some v4 =>
      (fun p => (Char.ofNat (((v1 * 16 + v2) * 16 + v3) * 16 + v4) :: p.1, p.2))
        <$> pStrChars rest
    | _, _, _, _ => none
  | '\\' :: e :: rest =>
    if e = '"' then (fun p => ('"' :: p.1, p.2)) <$> pStrChars rest
    else if e = '\\' then (fun p => ('\\' :: p.1, p.2)) <$> pStrChars rest
    else if e = '/' then (fun p => ('/' :: p.1, p.2)) <$> pStrChars rest
    else if e = 'b' then (fun p => (Char.ofNat 8 :: p.1, p.2)) <$> pStrChars rest
    else if e = 'f' then (fun p => (Char.ofNat 12 :: p.1, p.2)) <$> pStrChars rest
    else if e = 'n' then (fun p => ('\n' :: p.1, p.2)) <$> pStrChars rest
    else if e = 'r' then (fun p => ('\r' :: p.1, p.2)) <$> pStrChars rest
    else if e = 't' then (fun p => ('\t' :: p.1, p.2)) <$> pStrChars rest
    else none
  | ['\\'] => none
  | c :: rest =>
    if c.toNat < 32 then none
    else (fun p => (c :: p.1, p.2)) <$> pStrChars rest

/-- Decode an unsigned JSON integer: `0` or a nonzero digit followed by more
digits (Python's number grammar restricted to integers; a following `.` or
exponent would make Python produce a float, which is outside the model). -/
def parseNatPart (cs : List Char) : Option (Nat × List Char) :=
  match cs with
  | [] => none
  | c :: _ =>
    if c = '0' then some (0, cs.tail)
    else if c.isDigit then
      some ((cs.takeWhile Char.isDigit).foldl (fun acc d => 10 * acc + (d.toNat - 48)) 0,
        cs.dropWhile Char.isDigit)
    else none

/-- Decode a JSON number (integer model), with optional leading minus. -/
def parseNumber (cs : List Char) : Option (Json × List Char) :=
  match cs with
  | [] => none
  | c :: rest =>
    if c = '-' then
      match parseNatPart rest with
      | some (n, r) => some (.num (-(n : Int)), r)
      | none => none
    else
      match parseNatPart (c :: rest) with
      | some (n, r) => some (.num (n : Int), r)
      | none => none

mutual

/-- Fuel-indexed model of Python `json`'s recursive-descent value decoder.
Fuel only bounds recursion depth; `2 * len + 2` fuel is always sufficient
because at least one character is consumed for every two fuel units. -/
def pVal : Nat → List Char → Option (Json × List Char)
  | 0, _ => none
  | f + 1, cs =>
    match skipWs cs with
    | [] => none
    | c :: rest =>
      if c = '{' then pObj f rest
      else if c = '[' then pArr f rest
      else if c = '"' then
        match pStrChars rest with
        | some (body, r) => some (.str (String.mk body), r)
        | none => none
      else if c = 't' then
        match rest with
        | 'r' :: 'u' :: 'e' :: r => some (.bool true, r)
        | _ => none
      else if c = 'f' then
        match rest with
        | 'a' :: 'l' :: 's' :: 'e' :: r => some (.bool false, r)
        | _ => none
      else if c = 'n' then
        match rest with
        | 'u' :: 'l' :: 'l' :: r => some (.null, r)
        | _ => none
      else parseNumber (c :: rest)

/-- Object decoder, entered after `{`. -/
def pObj : Nat → List Char → Option (Json × List Char)
  | 0, _ => none
  | f + 1, cs =>
    match skipWs cs with
    | [] => none
    | c :: rest =>
      if c = '}' then some (.obj [], rest)
      else if c = '"' then
        match pStrChars rest with
        | some (kbody, r1) =>
          match skipWs r1 with
          | ':' :: r2 =>
            match pVal f r2 with
            | some (v, r3) => pObjRest f [(String.mk kbody, v)] r3
            | none => none
          | _ => none
        | none => none
      else none

/-- Remaining object members, entered after the first member. -/
def pObjRest : Nat → List (String × Json) → List Char → Option (Json × List Char)
  | 0, _, _ => none
  | f + 1, acc, cs =>
    match skipWs cs with
    | [] => none
    | c :: rest =>
      if c = '}' then some (.obj acc, rest)
      else if c = ',' then
        match skipWs rest with
        | '"' :: r0 =>
          match pStrChars r0 with
          | some (kbody, r1) =>
            match skipWs r1 with
            | ':' :: r2 =>
              match pVal f r2 with
              | some (v, r3) => pObjRest f (acc ++ [(String.mk kbody, v)]) r3
              | none => none
            | _ => none
          | none => none
        | _ => none
      else none

/-- Array decoder, entered after `[`. -/
def pArr : Nat → List Char → Option (Json × List Char)
  | 0, _ => none
  | f + 1, cs =>
    match skipWs cs with
    | [] => none
    | c :: rest =>
      if c = ']' then some (.arr [], rest)
      else
        match pVal f cs with
        | some (v, r1) => pArrRest f [v] r1
        | none => none

/-- Remaining array elements, entered after the first element. -/
def pArrRest : Nat → List Json → List Char → Option (Json × List Char)
  | 0, _, _ => none
  | f + 1, acc, cs =>
    match skipWs cs with
    | [] => none
    | c :: rest =>
      if c = ']' then some (.arr acc, rest)
      else if c = ',' then
        match pVal f rest with
        | some (v, r1) => pArrRest f (acc ++ [v]) r1
        | none => none
      else none

end

/-- Model of `json.loads` / `json.load`: decode one value, then require only
whitespace to remain ("Extra data" otherwise). -/
def loadsChars (cs : List Char) : Option Json :=
  match pVal (2 * cs.length + 2) cs with
  | some (v, rest) => if (skipWs rest).isEmpty then some v else none
  | none => none

/-- `json.loads` on a Lean `String`. -/
def jsonLoads (s : String) : Option Json :=
  loadsChars s.data

/-- `json.dump`'s text for a value, as a `String`. -/
def jsonDumps (v : Json) : String :=
  String.mk (renderJson v)

/-- Whitespace class of Python `re`'s `\s` (ASCII part). -/
def isReWs (c : Char) : Bool :=
  c = ' ' || c = '\t' || c = '\n' || c = '\r' || c = Char.ofNat 11 || c = Char.ofNat 12

/-- Python `str.strip()`: remove leading and trailing whitespace. -/
def pyStrip (cs : List Char) : List Char :=
  ((cs.dropWhile isReWs).reverse.dropWhile isReWs).reverse

/-- Leftmost `re.search`: try a position-anchored matcher at every position. -/
def scanFirst {B : Type} (tryAt : List Char → Option B) : List Char → Option B
  | [] => tryAt []
  | c :: rest =>
    match tryAt (c :: rest) with
    | some r => some r
    | none => scanFirst tryAt rest

/-- `re.sub`: replace all non-overlapping matches, scanning left to right.
A position-anchored matcher returns the replacement text and the input
remaining after the match.  Fuelled by the input length (every match of the
patterns used here consumes at least one character). -/
def subAllAux (tryAt : List Char → Option (List Char × List Char)) :
    Nat → List Char → List Char
  | 0, cs => cs
  | _ + 1, [] => []
  | f + 1, c :: rest =>
    match tryAt (c :: rest) with
    | some (rep, rem) => rep ++ subAllAux tryAt f rem
    | none => c :: subAllAux tryAt f rest

/-- `re.sub` over a character list. -/
def subAll (tryAt : List Char → Option (List Char × List Char)) (cs : List Char) :
    List Char :=
  subAllAux tryAt cs.length cs

/-- `re.findall`: all non-overlapping matches, scanning left to right. -/
def findAllAux (tryAt : List Char → Option (List Char × List Char)) :
    Nat → List Char → List (List Char)
  | 0, _ => []
  | _ + 1, [] => []
  | f + 1, c :: rest =>
    match tryAt (c :: rest) with
    | some (m, rem) => m :: findAllAux tryAt f rem
    | none => findAllAux tryAt f rest

/-- `re.findall` over a character list. -/
def findAll (tryAt : List Char → Option (List Char × List Char)) (cs : List Char) :
    List (List Char) :=
  findAllAux tryAt cs.length cs

/-- Lazy `[\s\S]*?` up to (and including) the first occurrence of `close`. -/
def lazyTo (close : Char) : List Char → Option (List Char × List Char)
  | [] => none
  | c :: rest =>
    if c = close then some ([c], rest)
    else
      match lazyTo close rest with
      | some (m, rem) => some (c :: m, rem)
      | none => none

/-- Lazy `[\s\S]*?` up to the first occurrence of `close` whose remainder
satisfies `check` (for a pattern continuing after the lazy group). -/
def lazyToCheck (close : Char) (check : List Char → Bool) :
    List Char → Option (List Char × List Char)
  | [] => none
  | c :: rest =>
    if c = close && check rest then some ([c], rest)
    else
      match lazyToCheck close check rest with
      | some (m, rem) => some (c :: m, rem)
      | none => none

/-- Position-anchored matcher for `(\{[\s\S]*?\})` (and its `[` variant):
an opening delimiter followed lazily by anything up to the first closing
delimiter. -/
def matchDelimLazyAt (opend closed : Char) : List Char → Option (List Char × List Char)
  | c :: rest =>
    if c = opend then
      match lazyTo closed rest with
      | some (m, rem) => some (opend :: m, rem)
      | none => none
    else none
  | [] => none

/-- Greedy `[\s\S]*`: everything up to and including the LAST occurrence of
`close`. -/
def upToLastClose (close : Char) : List Char → Option (List Char)
  | [] => none
  | c :: rest =>
    match upToLastClose close rest with
    | some m => some (c :: m)
    | none => if c = close then some [c] else none

/-- `re.search(r'(\{[\s\S]*\})', s)`: from the first `{` greedily to the last
`}` (used by `_fix_json_format` and `_fix_json_aggressive`). -/
def searchBraceGreedy (cs : List Char) : Option (List Char) :=
  scanFirst
    (fun s =>
      match s with
      | '{' :: rest =>
        match upToLastClose '}' rest with
        | some m => some ('{' :: m)
        | none => none
      | _ => none) cs

/-- `startsWith` on character lists. -/
def startsWithChars (pre cs : List Char) : Bool :=
  cs.take pre.length = pre

/-- The fenced-block patterns of `_extract_json_block`:
` ```(?:json)?\s*(\{[\s\S]*?\})\s*``` ` (and the `[`/`]` variant); the lazy
group ends at the first closing delimiter followed by `\s*` and a closing
fence.  Only the group is used by the caller. -/
def searchFencedBlock (opend closed : Char) (cs : List Char) : Option (List Char) :=
  scanFirst
    (fun s =>
      if startsWithChars ['`', '`', '`'] s then
        let afterFence := s.drop 3
        let tryBody := fun (r : List Char) =>
          match r.dropWhile isReWs with
          | c :: rest =>
            if c = opend then
              match lazyToCheck closed
                  (fun rem => startsWithChars ['`', '`', '`'] (rem.dropWhile isReWs)) rest with
              | some (m, _) => some (opend :: m)
              | none => none
            else none
          | [] => none
        match tryBody (if startsWithChars ['j', 's', 'o', 'n'] afterFence
            then afterFence.drop 4 else afterFence) with
        | some g => some g
        | none => tryBody afterFence
      else none) cs

/-- Matcher for `,(\s*[}\]])` (trailing commas before a closing bracket);
the replacement is the captured group, i.e. the comma is dropped. -/
def matchTrailingCommaAt : List Char → Option (List Char × List Char)
  | ',' :: rest =>
    let ws := rest.takeWhile isReWs
    match rest.dropWhile isReWs with
    | c :: rem => if c = '}' || c = ']' then some (ws ++ [c], rem) else none
    | [] => none
  | _ => none

/-- `re.sub(r'^```(?:json)?\s*', '', s)` (anchored at the start). -/
def stripMarkdownPrefix (cs : List Char) : List Char :=
  if startsWithChars ['`', '`', '`'] cs then
    let rest := cs.drop 3
    let rest := if startsWithChars ['j', 's', 'o', 'n'] rest then rest.drop 4 else rest
    rest.dropWhile isReWs
  else cs

/-- `re.sub(r'\s*```$', '', s)` (anchored at the end). -/
def stripMarkdownSuffix (cs : List Char) : List Char :=
  let rev := cs.reverse
  if startsWithChars ['`', '`', '`'] rev then
    ((rev.drop 3).dropWhile isReWs).reverse
  else cs

/-- Smart-quote normalisation: `[“”] -> "` and `[‘’] -> '`
(code points 0x201C/0x201D and 0x2018/0x2019). -/
def fixSmartQuote (c : Char) : Char :=
  if c = Char.ofNat 0x201C || c = Char.ofNat 0x201D then '"'
  else if c = Char.ofNat 0x2018 || c = Char.ofNat 0x2019 then '\''
  else c

/-- `re.sub(r'(?<!\\)\n(?!")', '\\n', s)`: a literal newline not preceded by a
backslash and not followed by a quote becomes the two characters `\n`. -/
def fixRawNewlines (prev : Option Char) : List Char → List Char
  | [] => []
  | c :: rest =>
    if c = '\n' && prev ≠ some '\\' && rest.head? ≠ some '"' then
      '\\' :: 'n' :: fixRawNewlines (some c) rest
    else c :: fixRawNewlines (some c) rest

/-- `re.sub(r'(?<!\\)\t', '\\t', s)`. -/
def fixRawTabs (prev : Option Char) : List Char → List Char
  | [] => []
  | c :: rest =>
    if c = '\t' && prev ≠ some '\\' then
      '\\' :: 't' :: fixRawTabs (some c) rest
    else c :: fixRawTabs (some c) rest

/-- `_clean_json_string` (lines 367-389): markdown fences off, smart quotes to
ASCII, raw newlines/tabs escaped, trailing commas dropped, then `strip()`. -/
def cleanJsonString (cs : List Char) : List Char :=
  let c1 := stripMarkdownPrefix cs
  let c2 := stripMarkdownSuffix c1
  let c3 := c2.map fixSmartQuote
  let c4 := fixRawNewlines none c3
  let c5 := fixRawTabs none c4
  let c6 := subAll matchTrailingCommaAt c5
  pyStrip c6

/-- First character of an identifier: `[a-zA-Z_]`. -/
def isIdentStart (c : Char) : Bool :=
  c.isAlpha || c = '_'

/-- Identifier character: `[a-zA-Z0-9_]` (also Python `\w` for ASCII). -/
def isIdentChar (c : Char) : Bool :=
  c.isAlpha || c.isDigit || c = '_'

/-- Matcher for `([{,])\s*([a-zA-Z_][a-zA-Z0-9_]*)\s*:` with replacement
`\1"\2":` (quoting unquoted object keys). -/
def matchKeyQuoteAt : List Char → Option (List Char × List Char)
  | c0 :: rest =>
    if c0 = '{' || c0 = ',' then
      match rest.dropWhile isReWs with
      | i0 :: irest =>
        if isIdentStart i0 then
          let ident := i0 :: irest.takeWhile isIdentChar
          match (irest.dropWhile isIdentChar).dropWhile isReWs with
          | ':' :: rem => some (c0 :: '"' :: ident ++ ['"', ':'], rem)
          | _ => none
        else none
      | [] => none
    else none
  | [] => none

/-- Lazy `X*?` extension: the shortest (possibly empty) run of characters not
satisfying `bad` after which `check` holds on the remainder. -/
def lazyExtend (bad : Char → Bool) (check : List Char → Bool) :
    List Char → Option (List Char × List Char)
  | [] => if check [] then some ([], []) else none
  | c :: rest =>
    if check (c :: rest) then some ([], c :: rest)
    else if bad c then none
    else
      match lazyExtend bad check rest with
      | some (g, rem) => some (c :: g, rem)
      | none => none

/-- Matcher for `:\s*([^",\s][^,}]*?)(?=\s*[,}])` with replacement `: "\1"`
(quoting bare scalar values; the lookahead is not consumed). -/
def matchValueQuoteAt : List Char → Option (List Char × List Char)
  | ':' :: rest =>
    match rest.dropWhile isReWs with
    | v0 :: vrest =>
      if v0 ≠ '"' && v0 ≠ ',' && !isReWs v0 then
        match lazyExtend (fun c => c = ',' || c = '}')
            (fun s =>
              match s.dropWhile isReWs with
              | c :: _ => c = ',' || c = '}'
              | [] => false) vrest with
        | some (g, rem) => some (':' :: ' ' :: '"' :: (v0 :: g) ++ ['"'], rem)
        | none => none
      else none
    | [] => none
  | _ => none

/-- Matcher for `\[\s*([^",\s][^,\]]*?)\s*([,\]])` with replacement `["\1"\2`
(quoting the first bare array element; the delimiter is consumed). -/
def matchArrayQuoteAt : List Char → Option (List Char × List Char)
  | '[' :: rest =>
    match rest.dropWhile isReWs with
    | v0 :: vrest =>
      if v0 ≠ '"' && v0 ≠ ',' && !isReWs v0 then
        match lazyExtend (fun c => c = ',' || c = ']')
            (fun s =>
              match s.dropWhile isReWs with
              | c :: _ => c = ',' || c = ']'
              | [] => false) vrest with
        | some (g, rem) =>
          match rem.dropWhile isReWs with
          | d :: rem2 =>
            if d = ',' || d = ']' then
              some ('[' :: '"' :: (v0 :: g) ++ ['"', d], rem2)
            else none
          | [] => none
        | none => none
      else none
    | [] => none
  | _ => none

/-- Greedy `X+` with backtracking: the longest nonempty prefix of characters
satisfying `good` after which `check` holds on the remainder. -/
def greedyBacktrack (good : Char → Bool) (check : List Char → Bool) :
    List Char → Option (List Char × List Char)
  | [] => none
  | c :: rest =>
    if good c then
      match greedyBacktrack good check rest with
      | some (g, rem) => some (c :: g, rem)
      | none => if check rest then some ([c], rest) else none
    else none

/-- Matcher for `_fix_json_aggressive`'s `(\w+)\s*(\w+)\s*:` with replacement
`\1",\2":` (inserting a separator between adjacent word tokens before a
colon).  The two principal backtracking resolutions of the regex engine are
realised: two word runs separated by whitespace, or a single word run split
before its last character. -/
def matchAggrCommaAt : List Char → Option (List Char × List Char)
  | c0 :: rest =>
    if isIdentChar c0 then
      let w := c0 :: rest.takeWhile isIdentChar
      let afterW := rest.dropWhile isIdentChar
      let s := afterW.takeWhile isReWs
      let afterS := afterW.dropWhile isReWs
      let try1 :=
        if s.isEmpty then none
        else
          match afterS with
          | d0 :: drest =>
            if isIdentChar d0 then
              let w2 := d0 :: drest.takeWhile isIdentChar
              match (drest.dropWhile isIdentChar).dropWhile isReWs with
              | ':' :: rem => some (w ++ '"' :: ',' :: w2 ++ ['"', ':'], rem)
              | _ => none
            else none
          | [] => none
      match try1 with
      | some r => some r
      | none =>
        match w with
        | _ :: _ :: _ =>
          match afterS with
          | ':' :: rem =>
            some (w.dropLast ++ '"' :: ',' :: [w.getLastD c0] ++ ['"', ':'], rem)
          | _ => none
        | _ => none
    else none
  | [] => none

/-- Matcher for `:\s*([^",\s]+)(?=\s*[,}])` with replacement `: "\1"`
(the aggressive bare-value quoting; greedy with backtracking to satisfy the
lookahead). -/
def matchAggrValueAt : List Char → Option (List Char × List Char)
  | ':' :: rest =>
    match greedyBacktrack (fun c => c ≠ '"' && c ≠ ',' && !isReWs c)
        (fun s =>
          match s.dropWhile isReWs with
          | c :: _ => c = ',' || c = '}'
          | [] => false) (rest.dropWhile isReWs) with
    | some (g, rem) => some (':' :: ' ' :: '"' :: g ++ ['"'], rem)
    | none => none
  | _ => none

/-- Matcher for `\[\s*([^,\]]+)\s*\]` with replacement `["\1"]`
(the aggressive whole-array quoting). -/
def matchAggrArrayAt : List Char → Option (List Char × List Char)
  | '[' :: rest =>
    let body := rest.dropWhile isReWs
    let g := body.takeWhile (fun c => c ≠ ',' && c ≠ ']')
    if g.isEmpty then none
    else
      match body.dropWhile (fun c => c ≠ ',' && c ≠ ']') with
      | ']' :: rem => some ('[' :: '"' :: g ++ ['"', ']'], rem)
      | _ => none
  | _ => none

/-- Matcher for `(\{[^{}]*"[^{}]*"[^{}]*\})`: a brace-free body containing at
least two double quotes, wrapped in braces. -/
def matchObjTwoQuotesAt : List Char → Option (List Char × List Char)
  | '{' :: rest =>
    let body := rest.takeWhile (fun c => c ≠ '{' && c ≠ '}')
    match rest.dropWhile (fun c => c ≠ '{' && c ≠ '}') with
    | '}' :: rem =>
      if 2 ≤ (body.filter (fun c => c = '"')).length then
        some ('{' :: body ++ ['}'], rem)
      else none
    | _ => none
  | _ => none

/-- Matcher for `(\{[^{}]*\})`: a brace-free body wrapped in braces. -/
def matchObjSimpleAt : List Char → Option (List Char × List Char)
  | '{' :: rest =>
    let body := rest.takeWhile (fun c => c ≠ '{' && c ≠ '}')
    match rest.dropWhile (fun c => c ≠ '{' && c ≠ '}') with
    | '}' :: rem => some ('{' :: body ++ ['}'], rem)
    | _ => none
  | _ => none

/-- Matcher for `(\{[^}]*\})`: anything up to the first `}` (the body may
contain `{`), wrapped in braces. -/
def matchObjAnyAt : List Char → Option (List Char × List Char)
  | '{' :: rest =>
    let body := rest.takeWhile (fun c => c ≠ '}')
    match rest.dropWhile (fun c => c ≠ '}') with
    | '}' :: rem => some ('{' :: body ++ ['}'], rem)
    | _ => none
  | _ => none

/-- Matcher for `(\[[^\[\]]*\])`: a bracket-free body wrapped in brackets. -/
def matchArrSimpleAt : List Char → Option (List Char × List Char)
  | '[' :: rest =>
    let body := rest.takeWhile (fun c => c ≠ '[' && c ≠ ']')
    match rest.dropWhile (fun c => c ≠ '[' && c ≠ ']') with
    | ']' :: rem => some ('[' :: body ++ [']'], rem)
    | _ => none
  | _ => none

/-- Python string-literal body with terminator `q` for the `ast.literal_eval`
model: recognised short escapes are decoded, an unrecognised escape keeps the
backslash (Python's behaviour), raw control characters are allowed. -/
def pStrCharsPy (q : Char) : List Char → Option (List Char × List Char)
  | [] => none
  | c :: rest =>
    if c = q then some ([], rest)
    else if c = '\\' then
      match rest with
      | [] => none
      | e :: rest2 =>
        let dec : Option Char :=
          if e = '\\' then some '\\'
          else if e = '\'' then some '\''
          else if e = '"' then some '"'
          else if e = 'n' then some '\n'
          else if e = 't' then some '\t'
          else if e = 'r' then some '\r'
          else if e = 'b' then some (Char.ofNat 8)
          else if e = 'f' then some (Char.ofNat 12)
          else if e = '0' then some (Char.ofNat 0)
          else none
        match dec with
        | some d => (fun p => (d :: p.1, p.2)) <$> pStrCharsPy q rest2
        | none => (fun p => ('\\' :: e :: p.1, p.2)) <$> pStrCharsPy q rest2
    else (fun p => (c :: p.1, p.2)) <$> pStrCharsPy q rest

mutual

/-- Fuel-indexed model of `ast.literal_eval` restricted to JSON-like Python
literals: single- or double-quoted strings, integers, `True`/`False`/`None`,
lists and string-keyed dicts (with trailing commas allowed); any other
literal shape yields `none`. -/
def pLitVal : Nat → List Char → Option (Json × List Char)
  | 0, _ => none
  | f + 1, cs =>
    match skipWs cs with
    | [] => none
    | c :: rest =>
      if c = '{' then pLitDict f rest
      else if c = '[' then pLitList f rest
      else if c = '"' || c = '\'' then
        match pStrCharsPy c rest with
        | some (body, r) => some (.str (String.mk body), r)
        | none => none
      else if c = 'T' then
        match rest with
        | 'r' :: 'u' :: 'e' :: r => some (.bool true, r)
        | _ => none
      else if c = 'F' then
        match rest with
        | 'a' :: 'l' :: 's' :: 'e' :: r => some (.bool false, r)
        | _ => none
      else if c = 'N' then
        match rest with
        | 'o' :: 'n' :: 'e' :: r => some (.null, r)
        | _ => none
      else parseNumber (c :: rest)

/-- Dict decoder of the literal model, entered after `{`. -/
def pLitDict : Nat → List Char → Option (Json × List Char)
  | 0, _ => none
  | f + 1, cs =>
    match skipWs cs with
    | [] => none
    | c :: rest =>
      if c = '}' then some (.obj [], rest)
      else
        match pLitVal f cs with
        | some (.str k, r1) =>
          match skipWs r1 with
          | ':' :: r2 =>
            match pLitVal f r2 with
            | some (v, r3) => pLitDictRest f [(k, v)] r3
            | none => none
          | _ => none
        | _ => none

/-- Remaining dict members of the literal model (trailing comma allowed). -/
def pLitDictRest : Nat → List (String × Json) → List Char → Option (Json × List Char)
  | 0, _, _ => none
  | f + 1, acc, cs =>
    match skipWs cs with
    | [] => none
    | c :: rest =>
      if c = '}' then some (.obj acc, rest)
      else if c = ',' then
        match skipWs rest with
        | '}' :: r2 => some (.obj acc, r2)
        | _ =>
          match pLitVal f rest with
          | some (.str k, r1) =>
            match skipWs r1 with
            | ':' :: r2 =>
              match pLitVal f r2 with
              | some (v, r3) => pLitDictRest f (acc ++ [(k, v)]) r3
              | none => none
            | _ => none
          | _ => none
      else none

/-- List decoder of the literal model, entered after `[`. -/
def pLitList : Nat → List Char → Option (Json × List Char)
  | 0, _ => none
  | f + 1, cs =>
    match skipWs cs with
    | [] => none
    | c :: rest =>
      if c = ']' then some (.arr [], rest)
      else
        match pLitVal f cs with
        | some (v, r1) => pLitListRest f [v] r1
        | none => none

/-- Remaining list elements of the literal model (trailing comma allowed). -/
def pLitListRest : Nat → List Json → List Char → Option (Json × List Char)
  | 0, _, _ => none
  | f + 1, acc, cs =>
    match skipWs cs with
    | [] => none
    | c :: rest =>
      if c = ']' then some (.arr acc, rest)
      else if c = ',' then
        match skipWs rest with
        | ']' :: r2 => some (.arr acc, r2)
        | _ =>
          match pLitVal f rest with
          | some (v, r1) => pLitListRest f (acc ++ [v]) r1
          | none => none
      else none

end

/-- `ast.literal_eval` model over a character list: decode one literal and
require only whitespace to remain. -/
def literalEvalModel (cs : List Char) : Option Json :=
  match pLitVal (2 * cs.length + 2) cs with
  | some (v, rest) => if (skipWs rest).isEmpty then some v else none
  | none => none

/-- Python truthiness of a parsed JSON value. -/
def jsonTruthy : Json → Bool
  | .null => false
  | .bool b => b
  | .num n => n ≠ 0
  | .str s => !s.isEmpty
  | .arr l => !l.isEmpty
  | .obj m => !m.isEmpty

/-- Strategy 1, `_extract_json_block` (lines 344-365): four patterns tried in
order (fenced brace block, fenced bracket block, lazy brace span, lazy
bracket span); the first match of each is stripped, cleaned and parsed, and a
parse failure moves on to the next pattern. -/
def extractJsonBlock (cs : List Char) : Option Json :=
  let tryPat := fun (m : Option (List Char)) =>
    match m with
    | some g => loadsChars (cleanJsonString (pyStrip g))
    | none => none
  match tryPat (searchFencedBlock '{' '}' cs) with
  | some v => some v
  | none =>
    match tryPat (searchFencedBlock '[' ']' cs) with
    | some v => some v
    | none =>
      match tryPat (scanFirst (fun s => (matchDelimLazyAt '{' '}' s).map Prod.fst) cs) with
      | some v => some v
      | none => tryPat (scanFirst (fun s => (matchDelimLazyAt '[' ']' s).map Prod.fst) cs)

/-- Strategy 2, `_direct_json_parse` (lines 336-342): `json.loads(s.strip())`,
`None` on a parse error. -/
def directJsonParse (cs : List Char) : Option Json :=
  loadsChars (pyStrip cs)

/-- Strategy 4, `_fix_json_aggressive` (lines 466-495): extract the greedy
brace span, insert missing separators between adjacent word tokens, quote
remaining bare tokens, quote whole bare arrays, then try `ast.literal_eval`
(returning only a dict result) before the strict parser. -/
def fixJsonAggressive (cs : List Char) : Option Json :=
  match searchBraceGreedy cs with
  | none => none
  | some j0 =>
    let j1 := subAll matchAggrCommaAt j0
    let j2 := subAll matchAggrValueAt j1
    let j3 := subAll matchAggrArrayAt j2
    match literalEvalModel j3 with
    | some (Json.obj ms) => some (Json.obj ms)
    | _ => loadsChars j3

/-- Strategy 3, `_fix_json_format` (lines 434-464): extract the greedy brace
span, clean it, quote unquoted keys, quote bare scalar values, quote the
first bare array element, parse; if parsing still fails, hand the repaired
text to the aggressive fixer. -/
def fixJsonFormat (cs : List Char) : Option Json :=
  match searchBraceGreedy cs with
  | none => none
  | some j0 =>
    let j1 := cleanJsonString j0
    let j2 := subAll matchKeyQuoteAt j1
    let j3 := subAll matchValueQuoteAt j2
    let j4 := subAll matchArrayQuoteAt j3
    match loadsChars j4 with
    | some v => some v
    | none => fixJsonAggressive j4

/-- Strategy 5, `_extract_json_fallback` (lines 497-520): three `findall`
patterns in order; every match is run through `_fix_json_format` and the
first truthy result is returned. -/
def extractJsonFallback (cs : List Char) : Option Json :=
  let tryMatches := fun (ms : List (List Char)) =>
    ms.foldl
      (fun acc m =>
        match acc with
        | some v => some v
        | none =>
          match fixJsonFormat m with
          | some v => if jsonTruthy v then some v else none
          | none => none) none
  match tryMatches (findAll matchObjTwoQuotesAt cs) with
  | some v => some v
  | none =>
    match tryMatches (findAll matchObjSimpleAt cs) with
    | some v => some v
    | none => tryMatches (findAll matchObjAnyAt cs)

/-- `re.findall(label + r'[：:]\s*(.+?)(?=\n|$)', s)`: occurrences of a label
followed by a (full-width or ASCII) colon; the captured group is the
remainder of the line after intervening whitespace.  (The corner case where
only whitespace remains before the newline, in which Python can still yield
a whitespace-only group, is modelled as no match; the caller strips the
captured text anyway.) -/
def findLabeled (label : List Char) (cs : List Char) : List (List Char) :=
  findAll
    (fun s =>
      if startsWithChars label s then
        match s.drop label.length with
        | c :: rest =>
          if c = ':' || c = Char.ofNat 0xFF1A then
            let afterWs := rest.dropWhile isReWs
            let content := afterWs.takeWhile (fun c => c ≠ '\n')
            if content.isEmpty then none
            else some (content, afterWs.drop content.length)
          else none
        | [] => none
      else none) cs

/-- The pre-populated default record built by `_extract_fallback_from_text`
(lines 526-540). -/
def fallbackBaseFields : List (String × Json) :=
  [("test_approach",
      Json.obj [("methodology", Json.arr []), ("tools", Json.arr []),
        ("frameworks", Json.arr [])]),
    ("coverage_matrix", Json.arr []),
    ("priorities", Json.arr []),
    ("resource_estimation",
      Json.obj [("time", Json.null), ("personnel", Json.null), ("tools", Json.arr []),
        ("additional_resources", Json.arr [])])]

/-- `f'{n:03d}'`. -/
def pad3 (n : Nat) : List Char :=
  let ds := renderNatChars n
  List.replicate (3 - ds.length) '0' ++ ds

/-- `.strip()` into a JSON string value. -/
def strippedStr (cs : List Char) : Json :=
  Json.str (String.mk (pyStrip cs))

/-- Strategy 6, `_extract_fallback_from_text` (lines 522-571): start from the
pre-populated default record and append keys for any recognised labelled
sections; the result dict is always truthy, so the function always returns a
mapping. -/
def extractFallbackFromText (cs : List Char) : Option Json :=
  let funcReqs := findLabeled "功能需求".data cs
  let nfrReqs := findLabeled "非功能需求".data cs
  let scenarios := findLabeled "测试场景".data cs
  let risks := findLabeled "风险".data cs
  let extras :=
    (if funcReqs.isEmpty then []
     else [("functional_requirements", Json.arr (funcReqs.map strippedStr))])
    ++ (if nfrReqs.isEmpty then []
        else [("non_functional_requirements", Json.arr (nfrReqs.map strippedStr))])
    ++ (if scenarios.isEmpty then []
        else [("test_scenarios", Json.arr (scenarios.enum.map
          (fun p => Json.obj [("id", Json.str (String.mk ('T' :: 'S' :: pad3 (p.1 + 1)))),
            ("description", strippedStr p.2), ("test_cases", Json.arr [])])))])
    ++ (if risks.isEmpty then [] else [("risk_areas", Json.arr (risks.map strippedStr))])
  some (Json.obj (fallbackBaseFields ++ extras))

/-- Matcher for `:\s*\[([^]]*?)\](?=\s*[,}])` with replacement `: [\1]`
(array-spacing normalisation in `_fix_single_test_case`). -/
def matchArrNormAt : List Char → Option (List Char × List Char)
  | ':' :: rest =>
    match rest.dropWhile isReWs with
    | '[' :: arest =>
      let content := arest.takeWhile (fun c => c ≠ ']')
      match arest.dropWhile (fun c => c ≠ ']') with
      | ']' :: rem =>
        match rem.dropWhile isReWs with
        | c :: _ => if c = ',' || c = '}' then
            some (':' :: ' ' :: '[' :: content ++ [']'], rem)
          else none
        | [] => none
      | _ => none
    | _ => none
  | _ => none

/-- `_fix_single_test_case` (lines 246-264): quote keys, quote bare values,
normalise arrays, then parse strictly. -/
def fixSingleTestCase (cs : List Char) : Option Json :=
  let f1 := subAll matchKeyQuoteAt cs
  let f2 := subAll matchValueQuoteAt f1
  let f3 := subAll matchArrNormAt f2
  loadsChars f3

/-- The brace-count scan of `_fix_test_cases_array` (lines 224-241):
top-level `{...}` spans of the input, in order.  `cnt` is the running brace
count (an integer, as in the source), `cur` the span being recorded. -/
def scanTopObjs : List Char → Int → Option (List Char) → List (List Char)
  | [], _, _ => []
  | c :: rest, cnt, cur =>
    if c = '{' then
      scanTopObjs rest (cnt + 1) (if cnt = 0 then some ['{'] else cur.map (fun a => a ++ ['{']))
    else if c = '}' then
      match cur with
      | some a =>
        if cnt - 1 = 0 then (a ++ ['}']) :: scanTopObjs rest (cnt - 1) none
        else scanTopObjs rest (cnt - 1) (some (a ++ ['}']))
      | none => scanTopObjs rest (cnt - 1) none
    else scanTopObjs rest cnt (cur.map (fun a => a ++ [c]))

/-- `_fix_test_cases_array` (lines 215-244): repair each top-level object of
the array body, keep the truthy results, `None` when nothing survives. -/
def fixTestCasesArray (cs : List Char) : Option (List Json) :=
  let cases := (scanTopObjs cs 0 none).filterMap
    (fun o =>
      match fixSingleTestCase o with
      | some v => if jsonTruthy v then some v else none
      | none => none)
  if cases.isEmpty then none else some cases

/-- `_extract_test_cases_loosely` (lines 166-183): find
`"test_cases"\s*:\s*\[(.*?)\]`, repair the array body element-wise, and wrap
the result under the `test_cases` key. -/
def extractTestCasesLoosely (cs : List Char) : Option Json :=
  match scanFirst
      (fun s =>
        if startsWithChars ('"' :: "test_cases".data ++ ['"']) s then
          match (s.drop 12).dropWhile isReWs with
          | ':' :: r2 =>
            match r2.dropWhile isReWs with
            | '[' :: r3 => (lazyTo ']' r3).map (fun p => p.1.dropLast)
            | _ => none
          | _ => none
        else none) cs with
  | some content =>
    match fixTestCasesArray content with
    | some cases => some (Json.obj [("test_cases", Json.arr cases)])
    | none => none
  | none => none

/-- `_extract_any_json_fragment` (lines 185-213): four `findall` patterns in
order; every match is cleaned and parsed, a dict is returned as-is, a bare
array is wrapped under `test_cases`, anything else is skipped. -/
def extractAnyJsonFragment (cs : List Char) : Option Json :=
  let tryMatches := fun (ms : List (List Char)) =>
    ms.foldl
      (fun acc m =>
        match acc with
        | some v => some v
        | none =>
          match loadsChars (cleanJsonString m) with
          | some (Json.obj kvs) => some (Json.obj kvs)
          | some (Json.arr l) => some (Json.obj [("test_cases", Json.arr l)])
          | _ => none) none
  match tryMatches (findAll matchObjTwoQuotesAt cs) with
  | some v => some v
  | none =>
    match tryMatches (findAll matchObjSimpleAt cs) with
    | some v => some v
    | none =>
      match tryMatches (findAll matchArrSimpleAt cs) with
      | some v => some v
      | none => tryMatches (findAll matchObjAnyAt cs)

/-- Matcher for `\\(?!["\\/bfnrt]|u[0-9a-fA-F]{4})` with replacement `\\\\`
(doubling a backslash that does not begin a valid JSON escape). -/
def matchBadEscapeAt : List Char → Option (List Char × List Char)
  | '\\' :: rest =>
    let valid :=
      match rest with
      | e :: r2 =>
        if e = '"' || e = '\\' || e = '/' || e = 'b' || e = 'f' || e = 'n'
            || e = 'r' || e = 't' then true
        else if e = 'u' then
          match r2 with
          | h1 :: h2 :: h3 :: h4 :: _ =>
            (hexVal h1).isSome && (hexVal h2).isSome && (hexVal h3).isSome
              && (hexVal h4).isSome
          | _ => false
        else false
      | [] => false
    if valid then none else some (['\\', '\\'], rest)
  | _ => none

/-- The trailing position of the last balanced `}` (running brace count back
at zero), as computed by the scan loops of `_deep_clean_response` and
`_fix_truncated_json`. -/
def lastBalancedPos (cs : List Char) : Option Nat :=
  (cs.foldl
    (fun (st : Int × Nat × Option Nat) c =>
      if c = '{' then (st.1 + 1, st.2.1 + 1, st.2.2)
      else if c = '}' then
        (st.1 - 1, st.2.1 + 1, if st.1 - 1 = 0 then some st.2.1 else st.2.2)
      else (st.1, st.2.1 + 1, st.2.2)) ((0 : Int), (0 : Nat), (none : Option Nat))).2.2

/-- `_deep_clean_response` (lines 391-432): drop zero-width and control
characters, double invalid escapes, quote bare values and first array
elements, then truncate to the last balanced closing brace. -/
def deepCleanResponse (cs : List Char) : List Char :=
  let c1 := cs.filter
    (fun c => !(0x200B ≤ c.toNat && c.toNat ≤ 0x200D) && c.toNat ≠ 0xFEFF)
  let c2 := c1.filter
    (fun c => !(c.toNat ≤ 8) && c.toNat ≠ 11 && c.toNat ≠ 12
      && !(14 ≤ c.toNat && c.toNat ≤ 31) && c.toNat ≠ 127)
  let c3 := subAll matchBadEscapeAt c2
  let c4 := subAll matchValueQuoteAt c3
  let c5 := subAll matchArrayQuoteAt c4
  match lastBalancedPos c5 with
  | some p => if 0 < p then c5.take (p + 1) else c5
  | none => c5

/-- `_fix_truncated_json` (lines 266-289): truncate to the last balanced
closing brace and run the light repair on the prefix. -/
def fixTruncatedJson (cs : List Char) : Option Json :=
  match lastBalancedPos cs with
  | some p => if 0 < p then fixJsonFormat (cs.take (p + 1)) else none
  | none => none

/-- One keyword alternative of `_extract_test_cases_from_text`'s patterns:
label (ASCII case-insensitive), then `[\s\-\d]*`, then a colon, then the
remainder of the line. -/
def matchKeywordLineAt (labels : List (List Char)) (s : List Char) :
    Option (List Char × List Char) :=
  labels.foldl
    (fun acc lab =>
      match acc with
      | some r => some r
      | none =>
        if (s.take lab.length).map Char.toLower = lab.map Char.toLower then
          match (s.drop lab.length).dropWhile (fun c => isReWs c || c = '-' || c.isDigit) with
          | c :: rest =>
            if c = ':' || c = Char.ofNat 0xFF1A then
              let afterWs := rest.dropWhile isReWs
              let content := afterWs.takeWhile (fun c => c ≠ '\n')
              if content.isEmpty then none
              else some (content, afterWs.drop content.length)
            else none
          | [] => none
        else none) none

/-- `_extract_test_cases_from_text` (lines 573-611): five labelled-line
patterns; every nonempty match becomes a minimal placeholder record. -/
def extractTestCasesFromText (cs : List Char) : Option Json :=
  let pats : List (List (List Char)) :=
    [["测试用例".data, "TestCase".data, "TC".data],
      ["ID".data, "标识".data],
      ["标题".data, "Title".data],
      ["步骤".data, "Steps".data],
      ["预期结果".data, "Expected".data]]
  let cases := pats.foldl
    (fun acc pat =>
      (findAll (matchKeywordLineAt pat) cs).foldl
        (fun acc m =>
          if (pyStrip m).isEmpty then acc
          else
            acc ++ [Json.obj
              [("id", Json.str (String.mk ('T' :: 'C' :: '-' :: pad3 (acc.length + 1)))),
                ("title", strippedStr m),
                ("preconditions", Json.arr []),
                ("steps", Json.arr [strippedStr m]),
                ("expected_results", Json.arr [Json.str "验证功能正常"]),
                ("priority", Json.str "P1"),
                ("category", Json.str "功能测试")]]) acc) []
  if cases.isEmpty then none else some (Json.obj [("test_cases", Json.arr cases)])

/-- `if result: return result else continue` chaining on Python truthiness. -/
def pyIfTruthy (x : Option Json) (k : Option Json) : Option Json :=
  match x with
  | some v => if jsonTruthy v then some v else k
  | none => k

/-- The per-context strategy loop of `parse` (lines 92-101): run strategies in
order, return the first truthy dict result; a non-dict or falsy result (and,
in the exception model, a raising strategy) moves to the next strategy. -/
def parseLoop : List (List Char → Option Json) → List Char → Option Json
  | [], _ => none
  | s :: rest, resp =>
    match s resp with
    | some (Json.obj ms) => if ms.isEmpty then parseLoop rest resp else some (Json.obj ms)
    | _ => parseLoop rest resp

/-- The default strategy order (lines 62-69). -/
def defaultStrategies : List (List Char → Option Json) :=
  [extractJsonBlock, directJsonParse, fixJsonFormat, fixJsonAggressive,
    extractJsonFallback, extractFallbackFromText]

/-- `_smart_retry` (lines 113-164), whose body is one big `try/except` that
returns `None`; in the total model no step raises. -/
def smartRetry (cs : List Char) (context : String) : Option Json :=
  let step5 :=
    if context = "test_case_improvement" then
      pyIfTruthy (extractTestCasesFromText cs) none
    else none
  let step4 := pyIfTruthy (fixTruncatedJson cs) step5
  if context = "test_case_improvement" then
    pyIfTruthy (extractTestCasesLoosely cs)
      (pyIfTruthy (extractAnyJsonFragment cs)
        (let cleaned := deepCleanResponse cs
         if cleaned ≠ cs then
           match parseLoop defaultStrategies cleaned with
           | some v => some v
           | none => step4
         else step4))
  else step4

/-- The per-context strategy table (`__init__`, lines 23-69). -/
def strategiesFor (context : String) : List (List Char → Option Json) :=
  if context = "test_case_improvement" then
    [extractJsonBlock, directJsonParse, fixJsonFormat, fixJsonAggressive,
      extractJsonFallback, extractFallbackFromText]
  else if context = "test_case_generation" then
    [extractJsonBlock, directJsonParse, fixJsonFormat, extractJsonFallback,
      extractFallbackFromText]
  else if context = "test_design" then
    [extractJsonBlock, directJsonParse, fixJsonFormat, fixJsonAggressive,
      extractJsonFallback, extractFallbackFromText]
  else if context = "requirement_analysis" then
    [extractJsonBlock, directJsonParse, fixJsonFormat, extractFallbackFromText]
  else if context = "quality_assurance_review" then
    [extractJsonBlock, directJsonParse, fixJsonFormat, extractJsonFallback,
      extractFallbackFromText]
  else defaultStrategies

/-- `UnifiedJSONParser.parse` (lines 71-111) with the concrete strategies:
guard on an empty response, run the context's strategy chain, then (for the
two list-shaped contexts) the smart-retry extension, else `None`. -/
def uparse (resp : String) (context : String) : Option Json :=
  if resp.isEmpty then none
  else
    match parseLoop (strategiesFor context) resp.data with
    | some v => some v
    | none =>
      if context = "test_case_improvement" || context = "test_case_generation" then
        match smartRetry resp.data context with
        | some r => if jsonTruthy r then some r else none
        | none => none
      else none

/-- The strategy loop of `parse` (lines 92-101) over abstract strategies in
the exception model: each strategy call sits inside `try/except`, so a
raising strategy is treated exactly like one returning nothing; a returned
value is accepted only when it is a truthy dict. -/
def chainLoopE (resp : String) : List (String → Except String (Option Json)) → Option Json
  | [] => none
  | s :: rest =>
    match s resp with
    | .error _ => chainLoopE resp rest
    | .ok (some (Json.obj ms)) =>
      if ms.isEmpty then chainLoopE resp rest else some (Json.obj ms)
    | .ok _ => chainLoopE resp rest

/-- `_smart_retry` in the exception model (lines 113-164): its whole body is
one `try/except Exception: return None`, abstracted over the body. -/
def smartRetryE (body : Except String (Option Json)) : Except String (Option Json) :=
  pyTry body (fun _ => .ok none)

/-- `parse` (lines 71-111) in the exception model, over abstract strategies
and an abstract smart-retry body: guard on empty input, the strategy loop,
then the smart-retry extension for retry contexts, truthiness-checked. -/
def parseE (resp : String) (strats : List (String → Except String (Option Json)))
    (isRetryContext : Bool) (retryBody : Except String (Option Json)) :
    Except String (Option Json) :=
  if resp.isEmpty then .ok none
  else
    match chainLoopE resp strats with
    | some v => .ok (some v)
    | none =>
      if isRetryContext then
        match smartRetryE retryBody with
        | .ok (some r) => if jsonTruthy r then .ok (some r) else .ok none
        | .ok none => .ok none
        | .error e => .error e
      else .ok none

/-- A strategy outcome accepted by the loop: a truthy dict. -/
def acceptsE (r : Except String (Option Json)) : Prop :=
  ∃ ms, r = .ok (some (Json.obj ms)) ∧ ms ≠ []

/-- `AgentIO.save_result` (lines 33-56) on the success path: serialise the
mapping with `json.dump` and overwrite the whole file
`<output_dir>/<agent_name>_result.json`; the function returns the path.
(On an I/O failure `save_result` logs and re-raises — the failure path is
modelled by `stageSaveFails` in the orchestrator embedding.) -/
def saveResult (outputDir agentName : String) (result : Json)
    (fs : String → Option String) : String × (String → Option String) :=
  let filePath := outputDir ++ "/" ++ agentName ++ "_result.json"
  (filePath, fun p => if p = filePath then some (jsonDumps result) else fs p)

/-- `AgentIO.load_result` (lines 58-76): `None` when the file does not exist,
otherwise `json.load` of the whole file, with any exception degraded to
`None`. -/
def loadResult (outputDir agentName : String) (fs : String → Option String) :
    Option Json :=
  match fs (outputDir ++ "/" ++ agentName ++ "_result.json") with
  | none => none
  | some contents => jsonLoads contents

-- ## Round-trip lemmas for the JSON model

/-- Body of a rendered object after the opening brace. -/
def renderObjBody : List (String × Json) → List Char
  | [] => []
  | m :: tl => renderMember m ++ renderObjTail tl

/-- Body of a rendered array after the opening bracket. -/
def renderArrBody : List Json → List Char
  | [] => []
  | e :: tl => renderJson e ++ renderArrTail tl

/-- The decoder never mistakes what follows a rendered value for more digits. -/
def goodTail (cs : List Char) : Prop :=
  ∀ c, cs.head? = some c → c.isDigit = false

/-- Strategy returning an empty mapping (used in the C5 counterexample). -/
def stratEmptyDict : String → Except String (Option Json) :=
  fun _ => .ok (some (Json.obj []))

/-- Strategy returning the mapping with key a and value 1 (used in the C5
counterexample and witness). -/
def stratAB : String → Except String (Option Json) :=
  fun _ => .ok (some (Json.obj [("a", Json.num 1)]))

/-- The literal input of the C7 scenario: an object with an unquoted key,
a single-quoted string value and a trailing comma. -/
def c7Input : String :=
  String.mk ['{', 'a', ':', ' ', '1', ',', ' ', 'b', ':', ' ', '\'', 'x', '\'', ',', '}']

/-- The mapping the light-repair pipeline actually produces on `c7Input`:
the value-quoting pass wraps the unquoted `1` in double quotes (giving the
string "1") and wraps the single-quoted token INCLUDING its quotes (giving a
three-character string, quote-x-quote). -/
def c7Actual : Json :=
  Json.obj [("a", Json.str "1"), ("b", Json.str (String.mk ['\'', 'x', '\'']))]

/-- The mapping the spec claims for the C7 scenario. -/
def c7Claimed : Json :=
  Json.obj [("a", Json.num 1), ("b", Json.str "x")]

theorem chunkListAux_join {A : Type} (bs : Nat) (hbs : 1 ≤ bs) :
    ∀ (fuel : Nat) (l : List A), l.length ≤ fuel →
      (chunkListAux fuel bs l).flatten = l := by
  intro fuel
  induction fuel with
  | zero =>
    intro l hl
    have : l = [] := List.length_eq_zero.mp (Nat.le_zero.mp hl)
    simp [this, chunkListAux]
  | succ f ih =>
    intro l hl
    match l with
    | [] => simp [chunkListAux]
    | x :: xs =>
      have hdrop : ((x :: xs).drop bs).length ≤ f := by
        have : ((x :: xs).drop bs).length = (x :: xs).length - bs := by
          simp [List.length_drop]
        omega
      simp only [chunkListAux, List.flatten_cons, ih _ hdrop]
      exact List.take_append_drop bs (x :: xs)

theorem chunkList_join {A : Type} (bs : Nat) (hbs : 1 ≤ bs) (l : List A) :
    (chunkList bs l).flatten = l :=
  chunkListAux_join bs hbs l.length l (Nat.le_refl _)

theorem chunkListAux_mem_ne_nil {A : Type} (bs : Nat) (hbs : 1 ≤ bs) :
    ∀ (fuel : Nat) (l : List A) (c : List A), c ∈ chunkListAux fuel bs l → c ≠ [] := by
  intro fuel
  induction fuel with
  | zero => intro l c hc; simp [chunkListAux] at hc
  | succ f ih =>
    intro l c hc
    match l with
    | [] => simp [chunkListAux] at hc
    | x :: xs =>
      simp only [chunkListAux, List.mem_cons] at hc
      rcases hc with rfl | hc
      · match bs, hbs with
        | b + 1, _ => simp [List.take]
      · exact ih _ _ hc

theorem chunkList_mem_ne_nil {A : Type} (bs : Nat) (hbs : 1 ≤ bs) (l : List A) (c : List A)
    (hc : c ∈ chunkList bs l) : c ≠ [] :=
  chunkListAux_mem_ne_nil bs hbs l.length l c hc

theorem chunkListAux_eq_nil_iff {A : Type} (bs : Nat) :
    ∀ (fuel : Nat) (l : List A), l.length ≤ fuel →
      (chunkListAux fuel bs l = [] ↔ l = []) := by
  intro fuel l hl
  match fuel, l with
  | 0, l =>
    have : l = [] := List.length_eq_zero.mp (Nat.le_zero.mp hl)
    simp [this, chunkListAux]
  | f + 1, [] => simp [chunkListAux]
  | f + 1, x :: xs => simp [chunkListAux]

theorem chunkListAux_mem_length_le {A : Type} (bs : Nat) :
    ∀ (fuel : Nat) (l : List A) (c : List A), c ∈ chunkListAux fuel bs l →
      c.length ≤ bs := by
  intro fuel
  induction fuel with
  | zero => intro l c hc; simp [chunkListAux] at hc
  | succ f ih =>
    intro l c hc
    match l with
    | [] => simp [chunkListAux] at hc
    | x :: xs =>
      simp only [chunkListAux, List.mem_cons] at hc
      rcases hc with rfl | hc
      · simpa using Nat.min_le_left bs (x :: xs).length
      · exact ih _ _ hc

theorem chunkListAux_getD_full {A : Type} (bs : Nat) (hbs : 1 ≤ bs) :
    ∀ (fuel : Nat) (l : List A), l.length ≤ fuel →
      ∀ i : Nat, i + 1 < (chunkListAux fuel bs l).length →
        ((chunkListAux fuel bs l).getD i []).length = bs := by
  intro fuel
  induction fuel with
  | zero => intro l hl i hi; simp [chunkListAux] at hi
  | succ f ih =>
    intro l hl i hi
    match l with
    | [] => simp [chunkListAux] at hi
    | x :: xs =>
      have hdrop : ((x :: xs).drop bs).length ≤ f := by
        rw [List.length_drop]
        simp only [List.length_cons] at hl ⊢
        omega
      have heq : chunkListAux (f + 1) bs (x :: xs)
          = ((x :: xs).take bs) :: chunkListAux f bs ((x :: xs).drop bs) := rfl
      rw [heq] at hi ⊢
      match i with
      | 0 =>
        -- tail of the chunk list is nonempty, so the input is longer than `bs`
        have htail : chunkListAux f bs ((x :: xs).drop bs) ≠ [] := by
          intro h
          rw [h] at hi
          simp at hi
        have hne : (x :: xs).drop bs ≠ [] :=
          fun h => htail (((chunkListAux_eq_nil_iff bs f _ hdrop).mpr h))
        have hlong : bs < (x :: xs).length := by
          by_contra h
          exact hne (List.drop_eq_nil_of_le (Nat.le_of_not_lt h))
        rw [List.getD_cons_zero, List.length_take]
        simp only [List.length_cons] at hlong ⊢
        omega
      | i + 1 =>
        have hi' : i + 1 < (chunkListAux f bs ((x :: xs).drop bs)).length := by
          simp only [List.length_cons] at hi
          omega
        have := ih _ hdrop i hi'
        simpa [List.getD_cons_succ] using this

theorem chunkListAux_nil {A : Type} (fuel bs : Nat) :
    chunkListAux fuel bs ([] : List A) = [] := by
  cases fuel <;> rfl

theorem chunkListAux_getD_last {A : Type} (bs : Nat) (hbs : 1 ≤ bs) :
    ∀ (fuel : Nat) (l : List A), l.length ≤ fuel → l ≠ [] →
      ((chunkListAux fuel bs l).getD ((chunkListAux fuel bs l).length - 1) []).length
        = l.length - bs * ((chunkListAux fuel bs l).length - 1) := by
  intro fuel
  induction fuel with
  | zero =>
    intro l hl hne
    exact absurd (List.length_eq_zero.mp (Nat.le_zero.mp hl)) hne
  | succ f ih =>
    intro l hl hne
    match l with
    | [] => exact absurd rfl hne
    | x :: xs =>
      have hdrop : ((x :: xs).drop bs).length ≤ f := by
        rw [List.length_drop]
        simp only [List.length_cons] at hl ⊢
        omega
      by_cases hrest : (x :: xs).drop bs = []
      · -- single chunk: the whole list fits into one slice
        have hshort : (x :: xs).length ≤ bs := by
          by_contra h
          have := List.drop_eq_nil_iff_le.mp hrest
          omega
        have heq : chunkListAux (f + 1) bs (x :: xs) = [(x :: xs).take bs] := by
          show ((x :: xs).take bs) :: chunkListAux f bs ((x :: xs).drop bs) = _
          rw [hrest, chunkListAux_nil]
        rw [heq]
        simp only [List.length_cons, List.length_nil, Nat.zero_add, Nat.sub_self,
          List.getD_cons_zero, Nat.mul_zero, Nat.sub_zero, List.length_take]
        simp only [List.length_cons] at hshort ⊢
        omega
      · have htail : chunkListAux f bs ((x :: xs).drop bs) ≠ [] :=
          fun h => hrest ((chunkListAux_eq_nil_iff bs f _ hdrop).mp h)
        have hlen1 : 1 ≤ (chunkListAux f bs ((x :: xs).drop bs)).length :=
          Nat.one_le_iff_ne_zero.mpr (fun h => htail (List.length_eq_zero.mp h))
        have ihh := ih ((x :: xs).drop bs) hdrop hrest
        have heq : chunkListAux (f + 1) bs (x :: xs)
            = ((x :: xs).take bs) :: chunkListAux f bs ((x :: xs).drop bs) := rfl
        rw [heq]
        have hidx : ((((x :: xs).take bs) :: chunkListAux f bs ((x :: xs).drop bs)).length - 1)
            = ((chunkListAux f bs ((x :: xs).drop bs)).length - 1) + 1 := by
          simp only [List.length_cons]
          omega
        rw [hidx, List.getD_cons_succ, ihh, List.length_drop, Nat.mul_succ]
        omega

theorem length_mapWithIndex {A B : Type} (f : Nat → A → B) :
    ∀ (n : Nat) (l : List A), (mapWithIndex f n l).length = l.length := by
  intro n l
  induction l generalizing n with
  | nil => rfl
  | cons x xs ih => simp [mapWithIndex, ih]

theorem mapWithIndex_eq_map {A B : Type} (f : Nat → A → B)
    (h : ∀ i j a, f i a = f j a) :
    ∀ (n : Nat) (l : List A), mapWithIndex f n l = l.map (f 0) := by
  intro n l
  induction l generalizing n with
  | nil => rfl
  | cons x xs ih => simp [mapWithIndex, ih, h n 0 x]

theorem processImprovementBatch_ne_nil {A : Type} (llm : List A → Option (List A))
    (bsf : Bool) (i : Nat) (b : List A) (hb : b ≠ []) :
    processImprovementBatch llm bsf i b ≠ [] := by
  unfold processImprovementBatch
  by_cases h : (improveWithLlm llm b).isEmpty
  · simpa [h] using hb
  · simpa [h] using fun hc => h (by simp [hc])

theorem foldl_set_length {A : Type} (results : List (List A)) :
    ∀ (order : List Nat) (slots : List (Option (List A))),
      (order.foldl (fun s i => s.set i (some (results.getD i []))) slots).length
        = slots.length := by
  intro order
  induction order with
  | nil => intro slots; rfl
  | cons i rest ih =>
    intro slots
    rw [List.foldl_cons, ih]
    simp

theorem foldl_set_getElem? {A : Type} (results : List (List A)) :
    ∀ (order : List Nat) (slots : List (Option (List A))) (j : Nat),
      (order.foldl (fun s i => s.set i (some (results.getD i []))) slots)[j]?
        = if j ∈ order ∧ j < slots.length then some (some (results.getD j []))
          else slots[j]? := by
  intro order
  induction order with
  | nil => intro slots j; simp
  | cons i rest ih =>
    intro slots j
    rw [List.foldl_cons, ih]
    by_cases hjr : j ∈ rest
    · by_cases hlt : j < slots.length
      · simp [hjr, hlt]
      · simp only [List.length_set, hlt, and_false, if_false]
        rw [List.getElem?_set]
        have hj : slots[j]? = none :=
          List.getElem?_eq_none (Nat.le_of_not_lt hlt)
        by_cases hij : i = j
        · subst hij
          simp [Nat.not_lt.mp hlt, hj, Nat.le_of_not_lt hlt, hjr]
        · simp [hij, hj, hjr, hlt]
    · by_cases hij : i = j
      · subst hij
        by_cases hlt : i < slots.length
        · simp [hjr, hlt, List.getElem?_set]
        · have hj : slots[i]? = none :=
            List.getElem?_eq_none (Nat.le_of_not_lt hlt)
          simp [hjr, hlt, List.getElem?_set, hj]
      · have hmem : ¬ j ∈ i :: rest := by
          simp only [List.mem_cons]
          rintro (h | h)
          · exact hij h.symm
          · exact hjr h
        simp only [List.length_set, hjr, false_and, if_false, hmem]
        rw [List.getElem?_set]
        simp [hij]

theorem collectBatchResults_perm {A : Type} (results : List (List A)) (order : List Nat)
    (hperm : order.Perm (List.range results.length)) :
    collectBatchResults results order = results.map some := by
  apply List.ext_getElem?
  intro j
  unfold collectBatchResults
  rw [foldl_set_getElem?]
  have hmem : j ∈ order ↔ j < results.length := by
    rw [hperm.mem_iff, List.mem_range]
  by_cases hj : j < results.length
  · have hgd : results.getD j [] = results[j] := by
      simp [List.getD_eq_getElem?_getD, List.getElem?_eq_getElem hj]
    simp [hmem, hj, hgd, List.getElem?_map, List.getElem?_eq_getElem hj]
  · have h1 : (List.replicate results.length (none : Option (List A)))[j]? = none :=
      List.getElem?_eq_none (by simpa using Nat.le_of_not_lt hj)
    have h2 : (results.map some)[j]? = none :=
      List.getElem?_eq_none (by simpa using Nat.le_of_not_lt hj)
    simp [hmem, hj, h1, h2]

theorem mergeBatchResults_map_some {A : Type} (results : List (List A)) :
    mergeBatchResults (results.map some)
      = results.foldl (fun acc r => if r.isEmpty then acc else acc ++ r) [] := by
  simp [mergeBatchResults, List.foldl_map]

theorem foldl_extend_eq_flatten {A : Type} :
    ∀ (results : List (List A)), (∀ r ∈ results, r ≠ []) →
      ∀ acc : List A,
        results.foldl (fun acc r => if r.isEmpty then acc else acc ++ r) acc
          = acc ++ results.flatten := by
  intro results
  induction results with
  | nil => intro _ acc; simp
  | cons r rest ih =>
    intro h acc
    have hr : r ≠ [] := h r (by simp)
    have hre : (r.isEmpty) = false := by
      cases r with
      | nil => exact absurd rfl hr
      | cons a as => rfl
    rw [List.foldl_cons, hre]
    simp only [Bool.false_eq_true, if_false]
    rw [ih (fun s hs => h s (by simp [hs])) (acc ++ r)]
    simp

theorem improveConcurrentOrd_eq_flatten {A : Type} (llm : List A → Option (List A))
    (bsf : Bool) (tc : List A) (w : Nat) (order : List Nat)
    (hperm : order.Perm (List.range (improveBatchesFor tc w).length)) :
    improveConcurrentOrd llm bsf tc w order
      = (mapWithIndex (processImprovementBatch llm bsf) 0 (improveBatchesFor tc w)).flatten := by
  by_cases htc : tc.isEmpty
  · have hb : improveBatchesFor tc w = [] := by simp [improveBatchesFor, htc]
    simp [improveConcurrentOrd, htc, hb, mapWithIndex]
  · unfold improveConcurrentOrd
    rw [if_neg htc]
    show mergeBatchResults (collectBatchResults
        (mapWithIndex (processImprovementBatch llm bsf) 0 (improveBatchesFor tc w)) order) = _
    have hlen : (mapWithIndex (processImprovementBatch llm bsf) 0 (improveBatchesFor tc w)).length
        = (improveBatchesFor tc w).length := length_mapWithIndex _ _ _
    have hperm' : order.Perm (List.range
        (mapWithIndex (processImprovementBatch llm bsf) 0 (improveBatchesFor tc w)).length) := by
      rw [hlen]; exact hperm
    rw [collectBatchResults_perm _ _ hperm', mergeBatchResults_map_some]
    have hidx : ∀ i j (a : List A),
        processImprovementBatch llm bsf i a = processImprovementBatch llm bsf j a :=
      fun _ _ _ => rfl
    have hmap := mapWithIndex_eq_map (processImprovementBatch llm bsf) hidx 0
        (improveBatchesFor tc w)
    have hne : ∀ r ∈ mapWithIndex (processImprovementBatch llm bsf) 0 (improveBatchesFor tc w),
        r ≠ [] := by
      rw [hmap]
      intro r hr
      rcases List.mem_map.mp hr with ⟨b, hb, rfl⟩
      have hbne : b ≠ [] := by
        have : b ∈ chunkList (max 1 (tc.length / (min tc.length (w * 2)))) tc := by
          simpa [improveBatchesFor, htc] using hb
        exact chunkList_mem_ne_nil _ (Nat.le_max_left 1 _) _ _ this
      exact processImprovementBatch_ne_nil llm bsf 0 b hbne
    rw [foldl_extend_eq_flatten _ hne []]
    simp

theorem improveConcurrent_eq_flatten {A : Type} (llm : List A → Option (List A))
    (bsf : Bool) (tc : List A) (w : Nat) :
    improveConcurrent llm bsf tc w
      = (mapWithIndex (processImprovementBatch llm bsf) 0 (improveBatchesFor tc w)).flatten :=
  improveConcurrentOrd_eq_flatten llm bsf tc w _ (List.Perm.refl _)

theorem improveBatchesFor_flatten {A : Type} (items : List A) (workers : Nat) :
    (improveBatchesFor items workers).flatten = items := by
  unfold improveBatchesFor
  by_cases h : items.isEmpty
  · simp [h, List.isEmpty_iff.mp h]
  · rw [if_neg h]
    exact chunkList_join _ (Nat.le_max_left 1 _) items

theorem featureBatchesFor_flatten {A : Type} (items : List A) (workers : Nat) :
    (featureBatchesFor items workers).flatten = items := by
  unfold featureBatchesFor
  by_cases h : items.isEmpty
  · simp [h, List.isEmpty_iff.mp h]
  · rw [if_neg h]
    exact chunkList_join _ (Nat.le_max_left 1 _) items

/-- **C2** — For every items list and every concurrency >= 1, the partition into
batches is exhaustive and non-overlapping: concatenating the batches (before
any processing) in ascending batch-index order reproduces the original items
sequence exactly, each item appearing exactly once.  This holds for both
partitioning sites (`_improve_test_cases_concurrent` line 1143 and
`_generate_feature_test_cases_concurrent` line 921). -/
theorem claim_C2_partition_exhaustive {A : Type} (items : List A) (workers : Nat)
    (hw : 1 ≤ workers) :
    (improveBatchesFor items workers).flatten = items
      ∧ (featureBatchesFor items workers).flatten = items :=
  ⟨improveBatchesFor_flatten items workers, featureBatchesFor_flatten items workers⟩

theorem claim_C2_witness :
    1 ≤ 2 ∧ ((improveBatchesFor [10, 20, 30] 2).flatten = [10, 20, 30]
      ∧ (featureBatchesFor [10, 20, 30] 2).flatten = [10, 20, 30]) :=
  ⟨by decide, claim_C2_partition_exhaustive [10, 20, 30] 2 (by decide)⟩

/-- **C3** — Once every batch has resolved, the orchestrator's merged result is
the concatenation of the per-batch results strictly in ascending batch-index
order, regardless of the order in which batches completed execution: for any
completion order that is a permutation of the batch indices, the
`as_completed` collection loop followed by the merge loop produces the
index-ordered concatenation, i.e. the same value as the canonical order. -/
theorem claim_C3_merge_index_order {A : Type} (llm : List A → Option (List A)) (bsf : Bool)
    (items : List A) (workers : Nat) (order : List Nat)
    (hperm : order.Perm (List.range (improveBatchesFor items workers).length)) :
    improveConcurrentOrd llm bsf items workers order
        = (mapWithIndex (processImprovementBatch llm bsf) 0 (improveBatchesFor items workers)).flatten
      ∧ improveConcurrentOrd llm bsf items workers order
        = improveConcurrent llm bsf items workers := by
  refine ⟨improveConcurrentOrd_eq_flatten llm bsf items workers order hperm, ?_⟩
  rw [improveConcurrentOrd_eq_flatten llm bsf items workers order hperm,
    improveConcurrent_eq_flatten]

theorem claim_C3_witness :
    ([2, 0, 1] : List Nat).Perm (List.range (improveBatchesFor ([1, 2, 3] : List Nat) 1).length)
      ∧ improveConcurrentOrd (fun b => some b) false ([1, 2, 3] : List Nat) 1 [2, 0, 1]
        = improveConcurrent (fun b => some b) false [1, 2, 3] 1 :=
  ⟨by decide, (claim_C3_merge_index_order (fun b => some b) false [1, 2, 3] 1 [2, 0, 1]
    (by decide)).2⟩

/-- **C6** — For `len(items) >= 1` and `concurrency > 1` the partitioning
computes `num_batches = min(len(items), concurrency*2)` and
`batch_size = max(1, len(items) // num_batches)` and slices items into
contiguous batches of `batch_size`; every batch before the last has exactly
`batch_size` elements, the trailing batch holds the remainder
(`len(items) - batch_size * (k-1)` elements, between 1 and `batch_size`),
and all items are covered.  For 7 items and concurrency 3 this yields
7 batches of size 1 (6 full batches plus the remainder batch), covering
all 7 items. -/
theorem claim_C6_partition_formula {A : Type} (items : List A) (workers : Nat)
    (h1 : 1 ≤ items.length) (h2 : 2 ≤ workers) :
    improveBatchesFor items workers
        = chunkList (max 1 (items.length / (min items.length (workers * 2)))) items
      ∧ (improveBatchesFor items workers).flatten = items
      ∧ (∀ i : Nat, i + 1 < (improveBatchesFor items workers).length →
          ((improveBatchesFor items workers).getD i []).length
            = max 1 (items.length / (min items.length (workers * 2))))
      ∧ ((improveBatchesFor items workers).getD
            ((improveBatchesFor items workers).length - 1) []).length
          = items.length - (max 1 (items.length / (min items.length (workers * 2))))
              * ((improveBatchesFor items workers).length - 1)
      ∧ 1 ≤ ((improveBatchesFor items workers).getD
            ((improveBatchesFor items workers).length - 1) []).length
      ∧ ((improveBatchesFor items workers).getD
            ((improveBatchesFor items workers).length - 1) []).length
          ≤ max 1 (items.length / (min items.length (workers * 2)))
      ∧ improveBatchesFor ([0, 1, 2, 3, 4, 5, 6] : List Nat) 3
          = [[0], [1], [2], [3], [4], [5], [6]] := by
  have hne : ¬ items.isEmpty := by
    cases items with
    | nil => simp at h1
    | cons x xs => simp
  have hnil : items ≠ [] := fun h => by simp [h] at hne
  have hbf : improveBatchesFor items workers
      = chunkList (max 1 (items.length / (min items.length (workers * 2)))) items := by
    unfold improveBatchesFor
    rw [if_neg hne]
  set bs := max 1 (items.length / (min items.length (workers * 2))) with hbs
  have hbs1 : 1 ≤ bs := Nat.le_max_left 1 _
  have hlast := chunkListAux_getD_last bs hbs1 items.length items (Nat.le_refl _) hnil
  have hchne : chunkList bs items ≠ [] := by
    intro h
    exact hnil ((chunkListAux_eq_nil_iff bs items.length items (Nat.le_refl _)).mp h)
  have hlen1 : 1 ≤ (chunkList bs items).length :=
    Nat.one_le_iff_ne_zero.mpr (fun h => hchne (List.length_eq_zero.mp h))
  have hmemlast : (chunkList bs items).getD ((chunkList bs items).length - 1) []
      ∈ chunkList bs items := by
    have hlt : (chunkList bs items).length - 1 < (chunkList bs items).length := by omega
    rw [List.getD_eq_getElem?_getD, List.getElem?_eq_getElem hlt]
    exact List.getElem_mem _
  refine ⟨hbf, improveBatchesFor_flatten items workers, ?_, ?_, ?_, ?_, by decide⟩
  · intro i hi
    rw [hbf] at hi ⊢
    exact chunkListAux_getD_full bs hbs1 items.length items (Nat.le_refl _) i hi
  · rw [hbf]
    exact hlast
  · rw [hbf]
    have := chunkList_mem_ne_nil bs hbs1 items _ hmemlast
    cases hgl : (chunkList bs items).getD ((chunkList bs items).length - 1) [] with
    | nil => exact absurd hgl this
    | cons a as => simp
  · rw [hbf]
    exact chunkListAux_mem_length_le bs items.length items _ hmemlast

theorem claim_C6_witness :
    1 ≤ ([0, 1, 2, 3, 4, 5, 6] : List Nat).length ∧ 2 ≤ 3
      ∧ improveBatchesFor ([0, 1, 2, 3, 4, 5, 6] : List Nat) 3
          = [[0], [1], [2], [3], [4], [5], [6]] :=
  ⟨by decide, by decide,
    (claim_C6_partition_formula ([0, 1, 2, 3, 4, 5, 6] : List Nat) 3
      (by decide) (by decide)).2.2.2.2.2.2⟩

/-- **C1 counterexample** — with 8 items and concurrency 2 the partition is
`[[0,1],[2,3],[4,5],[6,7]]`; the worker succeeds on every batch (no failure
occurs: never `None`, never an empty result), yet the merged result has 7
elements, strictly fewer than `len(items) = 8`, because a successful worker
may return a different number of cases than its batch held.  This refutes
"the sum of BatchResult lengths ... is never less than len(items)" and
"equals len(items) when no failure occurs" as universal statements. -/
theorem claim_C1_counterexample :
    (∀ b ∈ improveBatchesFor ([0, 1, 2, 3, 4, 5, 6, 7] : List Nat) 2,
        llmShrink b ≠ none ∧ llmShrink b ≠ some [])
      ∧ (improveConcurrent llmShrink false [0, 1, 2, 3, 4, 5, 6, 7] 2).length = 7
      ∧ ([0, 1, 2, 3, 4, 5, 6, 7] : List Nat).length = 8 := by
  decide

/-- **C1 (amended)** — for every non-empty items list and concurrency >= 1:
(a) if the worker fails for a batch (`llm b = none`, i.e. the model call
raised or yielded no valid cases), that batch's result is the batch's
original, unmodified items; (b) when every batch's worker fails, the merged
result is exactly the original items, so the total length equals
`len(items)`; (c) when no failure occurs and every successful result has the
same length as its batch, the merged length equals `len(items)`; (d) a batch
result is never empty (for a non-empty batch).  Without the
length-preservation proviso in (c) the claimed equality fails (see the
counterexample). -/
theorem claim_C1_failure_isolation {A : Type} (llm : List A → Option (List A)) (bsf : Bool)
    (items : List A) (workers : Nat) (hw : 1 ≤ workers) :
    (∀ (i : Nat) (b : List A), llm b = none → processImprovementBatch llm bsf i b = b)
      ∧ ((∀ b ∈ improveBatchesFor items workers, llm b = none) →
          improveConcurrent llm bsf items workers = items)
      ∧ ((∀ b ∈ improveBatchesFor items workers,
            ∃ r, llm b = some r ∧ r ≠ [] ∧ r.length = b.length) →
          (improveConcurrent llm bsf items workers).length = items.length)
      ∧ (∀ (i : Nat) (b : List A), b ≠ [] → processImprovementBatch llm bsf i b ≠ []) := by
  have hproc_none : ∀ (i : Nat) (b : List A), llm b = none →
      processImprovementBatch llm bsf i b = b := by
    intro i b hb
    unfold processImprovementBatch improveWithLlm
    rw [hb]
    by_cases h : b.isEmpty <;> simp [h]
  have hidx : ∀ i j (a : List A),
      processImprovementBatch llm bsf i a = processImprovementBatch llm bsf j a :=
    fun _ _ _ => rfl
  have hmap := mapWithIndex_eq_map (processImprovementBatch llm bsf) hidx 0
      (improveBatchesFor items workers)
  refine ⟨hproc_none, ?_, ?_, processImprovementBatch_ne_nil llm bsf⟩
  · intro hall
    rw [improveConcurrent_eq_flatten, hmap]
    have : (improveBatchesFor items workers).map (processImprovementBatch llm bsf 0)
        = improveBatchesFor items workers := by
      conv_rhs => rw [← List.map_id (improveBatchesFor items workers)]
      exact List.map_congr_left (fun b hb => hproc_none 0 b (hall b hb))
    rw [this]
    exact improveBatchesFor_flatten items workers
  · intro hall
    rw [improveConcurrent_eq_flatten, hmap]
    have hlen : ((improveBatchesFor items workers).map
        (processImprovementBatch llm bsf 0)).map List.length
        = (improveBatchesFor items workers).map List.length := by
      rw [List.map_map]
      apply List.map_congr_left
      intro b hb
      rcases hall b hb with ⟨r, hr, hrne, hrlen⟩
      have : processImprovementBatch llm bsf 0 b = r := by
        unfold processImprovementBatch improveWithLlm
        rw [hr]
        have : r.isEmpty = false := by
          cases r with
          | nil => exact absurd rfl hrne
          | cons a as => rfl
        simp [this]
      simp [this, hrlen]
    have h1 : (((improveBatchesFor items workers).map
        (processImprovementBatch llm bsf 0)).flatten).length
        = ((improveBatchesFor items workers).flatten).length := by
      rw [List.length_flatten, List.length_flatten, hlen]
    rw [h1, improveBatchesFor_flatten]

theorem claim_C1_witness :
    1 ≤ 2 ∧ improveConcurrent (fun _ : List Nat => none) false [5, 6, 7] 2 = [5, 6, 7] :=
  ⟨by decide, (claim_C1_failure_isolation (fun _ => none) false [5, 6, 7] 2
    (by decide)).2.1 (fun _ _ => rfl)⟩

/-- **C9 counterexample** — with items `[1, 2]`, concurrency 2, a worker that
improves every case, and a stage-level checkpoint save that raises:
`improve_test_cases` returns the ORIGINAL cases `[1, 2]` (via the outer
`except Exception: return test_cases`), even though the in-memory improved
result was `[101, 102]`.  So "the in-memory results (e.g. the improved test
cases) are still returned to the caller even though persistence failed" is
false for the stage-level save. -/
theorem claim_C9_counterexample :
    improveTestCasesE llmImprove true [1, 2] 2 = .ok [1, 2]
      ∧ improveConcurrent llmImprove false [1, 2] 2 = [101, 102]
      ∧ ¬ ([1, 2] : List Nat) = [101, 102] :=
  ⟨rfl, by decide, by decide⟩

/-- **C9 (amended)** — checkpoint save failures never escape to the caller:
(a) if the stage-level save of the merged result raises, the exception is
caught and the method returns the ORIGINAL test cases (not the improved
in-memory result); (b) if the stage-level save succeeds, the method returns
normally; (c) a per-batch checkpoint save failure is swallowed inside
`process_improvement_batch` and does not affect that batch's returned
result. -/
theorem claim_C9_checkpoint_failure {A : Type} (llm : List A → Option (List A))
    (testCases : List A) (workers : Nat) :
    improveTestCasesE llm true testCases workers = .ok testCases
      ∧ (∃ r, improveTestCasesE llm false testCases workers = .ok r)
      ∧ (∀ (sf1 sf2 : Bool) (i : Nat) (b : List A),
          processImprovementBatch llm sf1 i b = processImprovementBatch llm sf2 i b) := by
  refine ⟨?_, ?_, fun _ _ _ _ => rfl⟩
  · unfold improveTestCasesE pyTry
    by_cases h1 : testCases.isEmpty
    · simp [h1]
    · by_cases h2 : 1 < workers
      · by_cases h3 : (improveConcurrent llm false testCases workers).isEmpty <;>
          simp [h1, h2, h3]
      · by_cases h3 : (improveSequential llm testCases).isEmpty <;>
          simp [h1, h2, h3]
  · unfold improveTestCasesE pyTry
    by_cases h1 : testCases.isEmpty
    · exact ⟨testCases, by simp [h1]⟩
    · by_cases h2 : 1 < workers
      · by_cases h3 : (improveConcurrent llm false testCases workers).isEmpty
        · exact ⟨testCases, by simp [h1, h2, h3]⟩
        · exact ⟨improveConcurrent llm false testCases workers, by simp [h1, h2, h3]⟩
      · by_cases h3 : (improveSequential llm testCases).isEmpty
        · exact ⟨testCases, by simp [h1, h2, h3]⟩
        · exact ⟨improveSequential llm testCases, by simp [h1, h2, h3]⟩

theorem hexVal_hexCharOf : ∀ n : Nat, n < 16 → hexVal (hexCharOf n) = some n := by
  decide

theorem digitCharOf_isDigit : ∀ d : Nat, d < 10 → (digitCharOf d).isDigit = true := by
  decide

theorem digitCharOf_val : ∀ d : Nat, d < 10 → (digitCharOf d).toNat - 48 = d := by
  decide

theorem digitCharOf_ne_zero : ∀ d : Nat, d < 10 → d ≠ 0 → digitCharOf d ≠ '0' := by
  decide

theorem pStrChars_unicode (h3 h4 : Char) (v3 v4 : Nat) (rest : List Char)
    (hh3 : hexVal h3 = some v3) (hh4 : hexVal h4 = some v4) :
    pStrChars ('\\' :: 'u' :: '0' :: '0' :: h3 :: h4 :: rest)
      = (fun p => (Char.ofNat (((0 * 16 + 0) * 16 + v3) * 16 + v4) :: p.1, p.2))
          <$> pStrChars rest := by
  have h0 : hexVal '0' = some 0 := rfl
  simp [pStrChars, h0, hh3, hh4]

theorem pStr_render : ∀ (l : List Char) (rest : List Char),
    pStrChars (l.flatMap escapeChar ++ '"' :: rest) = some (l, rest) := by
  intro l
  induction l with
  | nil =>
    intro rest
    rfl
  | cons c cs ih =>
    intro rest
    have hsplit : (c :: cs).flatMap escapeChar ++ '"' :: rest
        = escapeChar c ++ (cs.flatMap escapeChar ++ '"' :: rest) := by
      simp [List.flatMap_cons, List.append_assoc]
    rw [hsplit]
    by_cases h1 : c = '"'
    · subst h1
      calc pStrChars (escapeChar '"' ++ (cs.flatMap escapeChar ++ '"' :: rest))
          = (fun p => ('"' :: p.1, p.2)) <$>
              pStrChars (cs.flatMap escapeChar ++ '"' :: rest) := rfl
        _ = some ('"' :: cs, rest) := by rw [ih]; rfl
    by_cases h2 : c = '\\'
    · subst h2
      calc pStrChars (escapeChar '\\' ++ (cs.flatMap escapeChar ++ '"' :: rest))
          = (fun p => ('\\' :: p.1, p.2)) <$>
              pStrChars (cs.flatMap escapeChar ++ '"' :: rest) := rfl
        _ = some ('\\' :: cs, rest) := by rw [ih]; rfl
    by_cases h3 : c = '\n'
    · subst h3
      calc pStrChars (escapeChar '\n' ++ (cs.flatMap escapeChar ++ '"' :: rest))
          = (fun p => ('\n' :: p.1, p.2)) <$>
              pStrChars (cs.flatMap escapeChar ++ '"' :: rest) := rfl
        _ = some ('\n' :: cs, rest) := by rw [ih]; rfl
    by_cases h4 : c = '\t'
    · subst h4
      calc pStrChars (escapeChar '\t' ++ (cs.flatMap escapeChar ++ '"' :: rest))
          = (fun p => ('\t' :: p.1, p.2)) <$>
              pStrChars (cs.flatMap escapeChar ++ '"' :: rest) := rfl
        _ = some ('\t' :: cs, rest) := by rw [ih]; rfl
    by_cases h5 : c = '\r'
    · subst h5
      calc pStrChars (escapeChar '\r' ++ (cs.flatMap escapeChar ++ '"' :: rest))
          = (fun p => ('\r' :: p.1, p.2)) <$>
              pStrChars (cs.flatMap escapeChar ++ '"' :: rest) := rfl
        _ = some ('\r' :: cs, rest) := by rw [ih]; rfl
    by_cases h6 : c = Char.ofNat 8
    · subst h6
      calc pStrChars (escapeChar (Char.ofNat 8) ++ (cs.flatMap escapeChar ++ '"' :: rest))
          = (fun p => (Char.ofNat 8 :: p.1, p.2)) <$>
              pStrChars (cs.flatMap escapeChar ++ '"' :: rest) := rfl
        _ = some (Char.ofNat 8 :: cs, rest) := by rw [ih]; rfl
    by_cases h7 : c = Char.ofNat 12
    · subst h7
      calc pStrChars (escapeChar (Char.ofNat 12) ++ (cs.flatMap escapeChar ++ '"' :: rest))
          = (fun p => (Char.ofNat 12 :: p.1, p.2)) <$>
              pStrChars (cs.flatMap escapeChar ++ '"' :: rest) := rfl
        _ = some (Char.ofNat 12 :: cs, rest) := by rw [ih]; rfl
    by_cases h8 : c.toNat < 32
    · have he : escapeChar c
          = ['\\', 'u', '0', '0', hexCharOf (c.toNat / 16), hexCharOf (c.toNat % 16)] := by
        simp [escapeChar, h1, h2, h3, h4, h5, h6, h7, h8]
      rw [he]
      have hhi : c.toNat / 16 < 16 := by omega
      have hlo : c.toNat % 16 < 16 := Nat.mod_lt _ (by omega)
      have hstep := pStrChars_unicode (hexCharOf (c.toNat / 16)) (hexCharOf (c.toNat % 16))
        (c.toNat / 16) (c.toNat % 16) (cs.flatMap escapeChar ++ '"' :: rest)
        (hexVal_hexCharOf _ hhi) (hexVal_hexCharOf _ hlo)
      simp only [List.cons_append, List.nil_append]
      rw [hstep, ih]
      have hc2 : c.toNat / 16 * 16 + c.toNat % 16 = c.toNat := by omega
      simp [hc2, Char.ofNat_toNat]
    · have he : escapeChar c = [c] := by
        simp [escapeChar, h1, h2, h3, h4, h5, h6, h7, h8]
      rw [he]
      simp only [List.cons_append, List.nil_append]
      have hstep : pStrChars (c :: (cs.flatMap escapeChar ++ '"' :: rest))
          = (fun p => (c :: p.1, p.2)) <$>
              pStrChars (cs.flatMap escapeChar ++ '"' :: rest) := by
        simp [pStrChars, h1, h2, h8]
      rw [hstep, ih]
      rfl

theorem foldl_digitChars :
    ∀ (L : List Nat) (acc : Nat), (∀ d ∈ L, d < 10) →
      (L.reverse.map digitCharOf).foldl (fun a c => 10 * a + (c.toNat - 48)) acc
        = acc * 10 ^ L.length + Nat.ofDigits 10 L := by
  intro L
  induction L with
  | nil => intro acc _; simp [Nat.ofDigits]
  | cons d L' ih =>
    intro acc hlt
    have hd : d < 10 := hlt d (by simp)
    have hrest : ∀ x ∈ L', x < 10 := fun x hx => hlt x (by simp [hx])
    rw [List.reverse_cons, List.map_append, List.foldl_append, ih acc hrest]
    simp only [List.map_cons, List.map_nil, List.foldl_cons, List.foldl_nil,
      Nat.ofDigits_cons, List.length_cons]
    rw [digitCharOf_val d hd]
    ring

theorem renderNatChars_ne_nil (n : Nat) : renderNatChars n ≠ [] := by
  unfold renderNatChars
  by_cases hn : n = 0
  · simp [hn]
  · have : Nat.digits 10 n ≠ [] := Nat.digits_ne_nil_iff_ne_zero.mpr hn
    simp only [hn, if_false]
    intro h
    rw [List.map_eq_nil, List.reverse_eq_nil_iff] at h
    exact this h

theorem renderNatChars_all_digits (n : Nat) :
    ∀ c ∈ renderNatChars n, c.isDigit = true := by
  intro c hc
  unfold renderNatChars at hc
  by_cases hn : n = 0
  · simp [hn] at hc
    subst hc; decide
  · simp only [hn, if_false, List.mem_map, List.mem_reverse] at hc
    rcases hc with ⟨d, hd, rfl⟩
    exact digitCharOf_isDigit d (Nat.digits_lt_base (by norm_num) hd)

theorem takeWhile_append_all {p : Char → Bool} :
    ∀ (xs ys : List Char), (∀ x ∈ xs, p x = true) →
      (∀ c, ys.head? = some c → p c = false) →
      (xs ++ ys).takeWhile p = xs ∧ (xs ++ ys).dropWhile p = ys := by
  intro xs
  induction xs with
  | nil =>
    intro ys _ hys
    constructor
    · cases ys with
      | nil => rfl
      | cons c t =>
        have := hys c rfl
        simp [List.takeWhile_cons, this]
    · cases ys with
      | nil => rfl
      | cons c t =>
        have := hys c rfl
        simp [List.dropWhile_cons, this]
  | cons x xs ih =>
    intro ys hxs hys
    have hx : p x = true := hxs x (by simp)
    have hrest := ih ys (fun a ha => hxs a (by simp [ha])) hys
    constructor
    · simp [List.takeWhile_cons, hx, hrest.1]
    · simp [List.dropWhile_cons, hx, hrest.2]

theorem parseNatPart_render (n : Nat) (rest : List Char)
    (hrest : ∀ c, rest.head? = some c → c.isDigit = false) :
    parseNatPart (renderNatChars n ++ rest) = some (n, rest) := by
  by_cases hn : n = 0
  · subst hn
    rfl
  · have hL : Nat.digits 10 n ≠ [] := Nat.digits_ne_nil_iff_ne_zero.mpr hn
    have hsplit := takeWhile_append_all (renderNatChars n) rest
      (renderNatChars_all_digits n) hrest
    -- head digit of the rendering is the leading (nonzero) digit
    obtain ⟨c, tl, hcons⟩ : ∃ c tl, renderNatChars n = c :: tl := by
      cases hr : renderNatChars n with
      | nil => exact absurd hr (renderNatChars_ne_nil n)
      | cons c tl => exact ⟨c, tl, rfl⟩
    have hlead : ∃ d, d < 10 ∧ d ≠ 0 ∧ c = digitCharOf d := by
      have hrev : (Nat.digits 10 n).reverse ≠ [] := by
        simpa [List.reverse_eq_nil_iff] using hL
      cases hr : (Nat.digits 10 n).reverse with
      | nil => exact absurd hr hrev
      | cons d ds =>
        have hmem : d ∈ Nat.digits 10 n := by
          rw [← List.mem_reverse, hr]; simp
        have hd10 : d < 10 := Nat.digits_lt_base (by norm_num) hmem
        have hsome : (Nat.digits 10 n).getLast? = some d := by
          rw [← List.head?_reverse, hr]
          rfl
        have hlastval : (Nat.digits 10 n).getLast hL = d := by
          have hgl := List.getLast?_eq_getLast (Nat.digits 10 n) hL
          rw [hgl] at hsome
          exact Option.some.inj hsome
        have hdne : d ≠ 0 := by
          rw [← hlastval]
          exact Nat.getLast_digit_ne_zero 10 hn
        have hrn : renderNatChars n = digitCharOf d :: ds.map digitCharOf := by
          unfold renderNatChars
          simp [hn, hr]
        refine ⟨d, hd10, hdne, ?_⟩
        rw [hcons] at hrn
        exact ((List.cons.injEq _ _ _ _).mp hrn).1
    rcases hlead with ⟨d, hd10, hdne, hcd⟩
    have hc0 : c ≠ '0' := by rw [hcd]; exact digitCharOf_ne_zero d hd10 hdne
    have hcdig : c.isDigit = true := by
      rw [hcd]; exact digitCharOf_isDigit d hd10
    rw [hcons, List.cons_append]
    have hstep : parseNatPart (c :: (tl ++ rest))
        = some (((c :: (tl ++ rest)).takeWhile Char.isDigit).foldl
            (fun acc d => 10 * acc + (d.toNat - 48)) 0,
          (c :: (tl ++ rest)).dropWhile Char.isDigit) := by
      simp [parseNatPart, hc0, hcdig]
    rw [hstep, ← List.cons_append, ← hcons, hsplit.1, hsplit.2]
    have hval : (renderNatChars n).foldl (fun a ch => 10 * a + (ch.toNat - 48)) 0 = n := by
      have hdigits : ∀ x ∈ Nat.digits 10 n, x < 10 :=
        fun x hx => Nat.digits_lt_base (by norm_num) hx
      have := foldl_digitChars (Nat.digits 10 n) 0 hdigits
      unfold renderNatChars
      simp only [hn, if_false]
      rw [this, Nat.ofDigits_digits]
      simp
    rw [hval]

theorem isDigit_char_facts (c : Char) (h : c.isDigit = true) :
    c ≠ '-' ∧ c ≠ '{' ∧ c ≠ '[' ∧ c ≠ '"' ∧ c ≠ 't' ∧ c ≠ 'f' ∧ c ≠ 'n'
      ∧ c ≠ ']' ∧ c ≠ '}' ∧ isJsonWs c = false := by
  have hne : ∀ x : Char, x.isDigit = false → c ≠ x := by
    intro x hx hc
    rw [hc, hx] at h
    exact Bool.false_ne_true h
  refine ⟨hne '-' (by decide), hne '{' (by decide), hne '[' (by decide),
    hne '"' (by decide), hne 't' (by decide), hne 'f' (by decide),
    hne 'n' (by decide), hne ']' (by decide), hne '}' (by decide), ?_⟩
  have h1 := hne ' ' (by decide)
  have h2 := hne '\t' (by decide)
  have h3 := hne '\n' (by decide)
  have h4 := hne '\r' (by decide)
  simp [isJsonWs, h1, h2, h3, h4]

theorem renderIntChars_head (i : Int) :
    ∃ c tl, renderIntChars i = c :: tl ∧ (c = '-' ∨ c.isDigit = true) := by
  unfold renderIntChars
  by_cases hi : i < 0
  · exact ⟨'-', renderNatChars i.natAbs, by simp [hi], Or.inl rfl⟩
  · obtain ⟨c, tl, hcons⟩ : ∃ c tl, renderNatChars i.natAbs = c :: tl := by
      cases hr : renderNatChars i.natAbs with
      | nil => exact absurd hr (renderNatChars_ne_nil _)
      | cons c tl => exact ⟨c, tl, rfl⟩
    refine ⟨c, tl, by simp [hi, hcons], Or.inr ?_⟩
    exact renderNatChars_all_digits _ c (by rw [hcons]; simp)

theorem parseNumber_render (i : Int) (rest : List Char)
    (hrest : ∀ c, rest.head? = some c → c.isDigit = false) :
    parseNumber (renderIntChars i ++ rest) = some (.num i, rest) := by
  by_cases hi : i < 0
  · have hr : renderIntChars i = '-' :: renderNatChars i.natAbs := by
      simp [renderIntChars, hi]
    rw [hr, List.cons_append]
    have hstep : parseNumber ('-' :: (renderNatChars i.natAbs ++ rest))
        = match parseNatPart (renderNatChars i.natAbs ++ rest) with
          | some (n, r) => some (.num (-(n : Int)), r)
          | none => none := by
      simp [parseNumber]
    rw [hstep, parseNatPart_render i.natAbs rest hrest]
    have hv : -((i.natAbs : Int)) = i := by omega
    show some (Json.num (-((i.natAbs : Nat) : Int)), rest) = some (Json.num i, rest)
    rw [hv]
  · obtain ⟨c, tl, hcons, hc⟩ := renderIntChars_head i
    have hcm : c ≠ '-' := by
      rcases hc with hc | hc
      · -- a nonnegative integer never renders with a leading minus
        exfalso
        have : renderIntChars i = renderNatChars i.natAbs := by
          simp [renderIntChars, hi]
        rw [this] at hcons
        have hd := renderNatChars_all_digits i.natAbs c (by rw [hcons]; simp)
        rw [hc] at hd
        exact absurd hd (by decide)
      · exact (isDigit_char_facts c hc).1
    rw [hcons, List.cons_append]
    have hstep : parseNumber (c :: (tl ++ rest))
        = match parseNatPart (c :: (tl ++ rest)) with
          | some (n, r) => some (.num (n : Int), r)
          | none => none := by
      simp [parseNumber, hcm]
    rw [hstep, ← List.cons_append, ← hcons]
    have hrn : renderIntChars i = renderNatChars i.natAbs := by
      simp [renderIntChars, hi]
    rw [hrn, parseNatPart_render i.natAbs rest hrest]
    have hv : ((i.natAbs : Nat) : Int) = i := by omega
    show some (Json.num ((i.natAbs : Nat) : Int), rest) = some (Json.num i, rest)
    rw [hv]

theorem renderJson_obj_eq (ms : List (String × Json)) :
    renderJson (.obj ms) = '{' :: renderObjBody ms ++ ['}'] := by
  cases ms <;> rfl

theorem renderJson_arr_eq (es : List Json) :
    renderJson (.arr es) = '[' :: renderArrBody es ++ [']'] := by
  cases es <;> rfl

theorem sizeJ_pos (v : Json) : 1 ≤ sizeJ v := by
  cases v <;> simp [sizeJ] <;> omega

theorem skipWs_cons_neg {c : Char} (h : isJsonWs c = false) (t : List Char) :
    skipWs (c :: t) = c :: t := by
  simp [skipWs, List.dropWhile_cons, h]

theorem pVal_cons_ws (f : Nat) (cs : List Char) : pVal f (' ' :: cs) = pVal f cs := by
  cases f with
  | zero => rfl
  | succ f =>
    have h : skipWs (' ' :: cs) = skipWs cs := by
      simp [skipWs, List.dropWhile_cons, isJsonWs]
    simp only [pVal, h]

theorem goodTail_objTail (tl : List (String × Json)) (rest : List Char) :
    goodTail (renderObjTail tl ++ '}' :: rest) := by
  intro c hc
  cases tl with
  | nil => simp [renderObjTail] at hc; subst hc; decide
  | cons m tl' => simp [renderObjTail] at hc; subst hc; decide

theorem goodTail_arrTail (tl : List Json) (rest : List Char) :
    goodTail (renderArrTail tl ++ ']' :: rest) := by
  intro c hc
  cases tl with
  | nil => simp [renderArrTail] at hc; subst hc; decide
  | cons e tl' => simp [renderArrTail] at hc; subst hc; decide

theorem renderJson_head_arr (v : Json) :
    ∃ c tl, renderJson v = c :: tl ∧ isJsonWs c = false ∧ c ≠ ']' := by
  cases v with
  | null => exact ⟨'n', _, rfl, by decide, by decide⟩
  | bool b =>
    cases b with
    | false => exact ⟨'f', _, rfl, by decide, by decide⟩
    | true => exact ⟨'t', _, rfl, by decide, by decide⟩
  | num i =>
    obtain ⟨c, tl, hcons, hc⟩ := renderIntChars_head i
    refine ⟨c, tl, hcons, ?_, ?_⟩
    · rcases hc with hc | hc
      · subst hc; decide
      · exact (isDigit_char_facts c hc).2.2.2.2.2.2.2.2.2
    · rcases hc with hc | hc
      · subst hc; decide
      · exact (isDigit_char_facts c hc).2.2.2.2.2.2.2.1
  | str s => exact ⟨'"', _, rfl, by decide, by decide⟩
  | arr es =>
    exact ⟨'[', renderArrBody es ++ [']'], renderJson_arr_eq es, by decide, by decide⟩
  | obj ms =>
    exact ⟨'{', renderObjBody ms ++ ['}'], renderJson_obj_eq ms, by decide, by decide⟩

theorem pRender_all : ∀ f : Nat,
    (∀ (v : Json) (rest : List Char), goodTail rest → sizeJ v ≤ f →
        pVal f (renderJson v ++ rest) = some (v, rest))
      ∧ (∀ (ms : List (String × Json)) (rest : List Char), 1 + sizeObj ms ≤ f →
          pObj f (renderObjBody ms ++ '}' :: rest) = some (.obj ms, rest))
      ∧ (∀ (ms acc : List (String × Json)) (rest : List Char), 1 + sizeObj ms ≤ f →
          pObjRest f acc (renderObjTail ms ++ '}' :: rest) = some (.obj (acc ++ ms), rest))
      ∧ (∀ (es : List Json) (rest : List Char), 1 + sizeArr es ≤ f →
          pArr f (renderArrBody es ++ ']' :: rest) = some (.arr es, rest))
      ∧ (∀ (es acc : List Json) (rest : List Char), 1 + sizeArr es ≤ f →
          pArrRest f acc (renderArrTail es ++ ']' :: rest) = some (.arr (acc ++ es), rest)) := by
  intro f
  induction f with
  | zero =>
    refine ⟨?_, ?_, ?_, ?_, ?_⟩
    · intro v rest _ hs
      exact absurd hs (by have := sizeJ_pos v; omega)
    · intro ms rest hs; omega
    · intro ms acc rest hs; omega
    · intro es rest hs; omega
    · intro es acc rest hs; omega
  | succ f ih =>
    obtain ⟨ihV, ihO, ihOR, ihA, ihAR⟩ := ih
    have hwq : isJsonWs '"' = false := by decide
    have hwlb : isJsonWs '[' = false := by decide
    have hwob : isJsonWs '{' = false := by decide
    have hwcol : isJsonWs ':' = false := by decide
    have hwcom : isJsonWs ',' = false := by decide
    have hwrb : isJsonWs ']' = false := by decide
    have hwcb : isJsonWs '}' = false := by decide
    refine ⟨?_, ?_, ?_, ?_, ?_⟩
    · -- pVal applied to a rendered value
      intro v rest hg hs
      cases v with
      | null => rfl
      | bool b => cases b <;> rfl
      | num i =>
        obtain ⟨c, tl, hcons, hc⟩ := renderIntChars_head i
        have hfacts : c ≠ '{' ∧ c ≠ '[' ∧ c ≠ '"' ∧ c ≠ 't' ∧ c ≠ 'f' ∧ c ≠ 'n'
            ∧ isJsonWs c = false := by
          rcases hc with hc | hc
          · subst hc
            exact ⟨by decide, by decide, by decide, by decide, by decide, by decide, by decide⟩
          · have h := isDigit_char_facts c hc
            exact ⟨h.2.1, h.2.2.1, h.2.2.2.1, h.2.2.2.2.1, h.2.2.2.2.2.1, h.2.2.2.2.2.2.1,
              h.2.2.2.2.2.2.2.2.2⟩
        show pVal (f + 1) (renderIntChars i ++ rest) = some (.num i, rest)
        rw [hcons, List.cons_append]
        have hstep : pVal (f + 1) (c :: (tl ++ rest)) = parseNumber (c :: (tl ++ rest)) := by
          simp [pVal, skipWs_cons_neg hfacts.2.2.2.2.2.2, hfacts.1, hfacts.2.1,
            hfacts.2.2.1, hfacts.2.2.2.1, hfacts.2.2.2.2.1, hfacts.2.2.2.2.2.1]
        rw [hstep, ← List.cons_append, ← hcons]
        exact parseNumber_render i rest hg
      | str s =>
        have hshape : renderJson (.str s) ++ rest
            = '"' :: (s.data.flatMap escapeChar ++ '"' :: rest) := by
          show renderStringChars s ++ rest = _
          simp [renderStringChars, List.append_assoc]
        rw [hshape]
        have hstep : pVal (f + 1) ('"' :: (s.data.flatMap escapeChar ++ '"' :: rest))
            = match pStrChars (s.data.flatMap escapeChar ++ '"' :: rest) with
              | some (body, r) => some (.str (String.mk body), r)
              | none => none := by
          simp [pVal, skipWs_cons_neg hwq]
        rw [hstep, pStr_render s.data rest]
      | arr es =>
        rw [renderJson_arr_eq]
        have hshape : ('[' :: renderArrBody es ++ [']']) ++ rest
            = '[' :: (renderArrBody es ++ ']' :: rest) := by
          simp [List.append_assoc]
        rw [hshape]
        have hstep : pVal (f + 1) ('[' :: (renderArrBody es ++ ']' :: rest))
            = pArr f (renderArrBody es ++ ']' :: rest) := by
          simp [pVal, skipWs_cons_neg hwlb]
        rw [hstep]
        apply ihA
        simp only [sizeJ] at hs
        omega
      | obj ms =>
        rw [renderJson_obj_eq]
        have hshape : ('{' :: renderObjBody ms ++ ['}']) ++ rest
            = '{' :: (renderObjBody ms ++ '}' :: rest) := by
          simp [List.append_assoc]
        rw [hshape]
        have hstep : pVal (f + 1) ('{' :: (renderObjBody ms ++ '}' :: rest))
            = pObj f (renderObjBody ms ++ '}' :: rest) := by
          simp [pVal, skipWs_cons_neg hwob]
        rw [hstep]
        apply ihO
        simp only [sizeJ] at hs
        omega
    · -- pObj applied to a rendered object body
      intro ms rest hsz
      cases ms with
      | nil => rfl
      | cons m tl =>
        obtain ⟨k, v⟩ := m
        have hsv : 1 ≤ sizeJ v := sizeJ_pos v
        have hszv : sizeJ v ≤ f := by
          simp only [sizeObj] at hsz
          omega
        have hsztl : 1 + sizeObj tl ≤ f := by
          simp only [sizeObj] at hsz
          omega
        have hshape : renderObjBody ((k, v) :: tl) ++ '}' :: rest
            = '"' :: (k.data.flatMap escapeChar
                ++ '"' :: (':' :: ' ' :: (renderJson v ++ (renderObjTail tl ++ '}' :: rest)))) := by
          simp [renderObjBody, renderMember, renderStringChars, List.append_assoc]
        rw [hshape]
        have hkey := pStr_render k.data
          (':' :: ' ' :: (renderJson v ++ (renderObjTail tl ++ '}' :: rest)))
        have hv := ihV v (renderObjTail tl ++ '}' :: rest) (goodTail_objTail tl rest) hszv
        have hrest := ihOR tl [(k, v)] rest hsztl
        have hstep : pObj (f + 1) ('"' :: (k.data.flatMap escapeChar
              ++ '"' :: (':' :: ' ' :: (renderJson v ++ (renderObjTail tl ++ '}' :: rest)))))
            = pObjRest f [(k, v)] (renderObjTail tl ++ '}' :: rest) := by
          simp [pObj, skipWs_cons_neg hwq, hkey, skipWs_cons_neg hwcol, pVal_cons_ws, hv]
        rw [hstep, hrest]
        simp
    · -- pObjRest applied to rendered remaining members
      intro ms acc rest hsz
      cases ms with
      | nil =>
        show pObjRest (f + 1) acc ('}' :: rest) = some (.obj (acc ++ []), rest)
        simp [pObjRest, skipWs_cons_neg hwcb]
      | cons m tl =>
        obtain ⟨k, v⟩ := m
        have hszv : sizeJ v ≤ f := by
          simp only [sizeObj] at hsz
          have := sizeJ_pos v
          omega
        have hsztl : 1 + sizeObj tl ≤ f := by
          simp only [sizeObj] at hsz
          have := sizeJ_pos v
          omega
        have hshape : renderObjTail ((k, v) :: tl) ++ '}' :: rest
            = ',' :: ' ' :: '"' :: (k.data.flatMap escapeChar
                ++ '"' :: (':' :: ' ' :: (renderJson v ++ (renderObjTail tl ++ '}' :: rest)))) := by
          simp [renderObjTail, renderMember, renderStringChars, List.append_assoc]
        rw [hshape]
        have hkey := pStr_render k.data
          (':' :: ' ' :: (renderJson v ++ (renderObjTail tl ++ '}' :: rest)))
        have hv := ihV v (renderObjTail tl ++ '}' :: rest) (goodTail_objTail tl rest) hszv
        have hrest := ihOR tl (acc ++ [(k, v)]) rest hsztl
        have hstep : pObjRest (f + 1) acc (',' :: ' ' :: '"' :: (k.data.flatMap escapeChar
              ++ '"' :: (':' :: ' ' :: (renderJson v ++ (renderObjTail tl ++ '}' :: rest)))))
            = pObjRest f (acc ++ [(k, v)]) (renderObjTail tl ++ '}' :: rest) := by
          simp [pObjRest, skipWs_cons_neg hwcom, skipWs, List.dropWhile_cons, isJsonWs,
            hkey, skipWs_cons_neg hwcol, pVal_cons_ws, hv]
        rw [hstep, hrest]
        simp
    · -- pArr applied to a rendered array body
      intro es rest hsz
      cases es with
      | nil => rfl
      | cons e tl =>
        have hsze : sizeJ e ≤ f := by
          simp only [sizeArr] at hsz
          omega
        have hsztl : 1 + sizeArr tl ≤ f := by
          simp only [sizeArr] at hsz
          have := sizeJ_pos e
          omega
        obtain ⟨c, ctl, hcons, hcw, hcne⟩ := renderJson_head_arr e
        have hshape : renderArrBody (e :: tl) ++ ']' :: rest
            = renderJson e ++ (renderArrTail tl ++ ']' :: rest) := by
          simp [renderArrBody, List.append_assoc]
        rw [hshape]
        have hv := ihV e (renderArrTail tl ++ ']' :: rest) (goodTail_arrTail tl rest) hsze
        have hrest := ihAR tl [e] rest hsztl
        have hstep : pArr (f + 1) (renderJson e ++ (renderArrTail tl ++ ']' :: rest))
            = pArrRest f [e] (renderArrTail tl ++ ']' :: rest) := by
          rw [hcons, List.cons_append]
          have hskip : skipWs (c :: (ctl ++ (renderArrTail tl ++ ']' :: rest)))
              = c :: (ctl ++ (renderArrTail tl ++ ']' :: rest)) := skipWs_cons_neg hcw _
          have hv' : pVal f (c :: (ctl ++ (renderArrTail tl ++ ']' :: rest)))
              = some (e, renderArrTail tl ++ ']' :: rest) := by
            rw [← List.cons_append, ← hcons]
            exact hv
          simp [pArr, hskip, hcne, hv']
        rw [hstep, hrest]
        simp
    · -- pArrRest applied to rendered remaining elements
      intro es acc rest hsz
      cases es with
      | nil =>
        show pArrRest (f + 1) acc (']' :: rest) = some (.arr (acc ++ []), rest)
        simp [pArrRest, skipWs_cons_neg hwrb]
      | cons e tl =>
        have hsze : sizeJ e ≤ f := by
          simp only [sizeArr] at hsz
          omega
        have hsztl : 1 + sizeArr tl ≤ f := by
          simp only [sizeArr] at hsz
          have := sizeJ_pos e
          omega
        have hshape : renderArrTail (e :: tl) ++ ']' :: rest
            = ',' :: ' ' :: (renderJson e ++ (renderArrTail tl ++ ']' :: rest)) := by
          simp [renderArrTail, List.append_assoc]
        rw [hshape]
        have hv := ihV e (renderArrTail tl ++ ']' :: rest) (goodTail_arrTail tl rest) hsze
        have hrest := ihAR tl (acc ++ [e]) rest hsztl
        have hstep : pArrRest (f + 1) acc
              (',' :: ' ' :: (renderJson e ++ (renderArrTail tl ++ ']' :: rest)))
            = pArrRest f (acc ++ [e]) (renderArrTail tl ++ ']' :: rest) := by
          simp [pArrRest, skipWs_cons_neg hwcom, pVal_cons_ws, hv]
        rw [hstep, hrest]
        simp

theorem renderIntChars_ne_nil (i : Int) : renderIntChars i ≠ [] := by
  unfold renderIntChars
  by_cases hi : i < 0
  · simp [hi]
  · simp only [hi, if_false]
    exact renderNatChars_ne_nil _

theorem sizeJ_le_render : ∀ (n : Nat),
    (∀ v, sizeJ v ≤ n → sizeJ v ≤ 2 * (renderJson v).length)
      ∧ (∀ es, sizeArr es ≤ n → sizeArr es ≤ 2 * (renderArrTail es).length)
      ∧ (∀ ms, sizeObj ms ≤ n → sizeObj ms ≤ 2 * (renderObjTail ms).length) := by
  intro n
  induction n with
  | zero =>
    refine ⟨?_, ?_, ?_⟩
    · intro v hv
      exact absurd hv (by have := sizeJ_pos v; omega)
    · intro es hes
      cases es with
      | nil => simp [sizeArr]
      | cons e tl =>
        exfalso
        simp only [sizeArr] at hes
        have := sizeJ_pos e
        omega
    · intro ms hms
      cases ms with
      | nil => simp [sizeObj]
      | cons m tl =>
        exfalso
        simp only [sizeObj] at hms
        have := sizeJ_pos m.2
        omega
  | succ n ih =>
    obtain ⟨ihV, ihA, ihO⟩ := ih
    have hval : ∀ v, sizeJ v ≤ n + 1 → sizeJ v ≤ 2 * (renderJson v).length := by
      intro v hv
      cases v with
      | null => simp [sizeJ, renderJson]
      | bool b => cases b <;> simp [sizeJ, renderJson]
      | num i =>
        have : renderIntChars i ≠ [] := renderIntChars_ne_nil i
        have hlen : 1 ≤ (renderIntChars i).length := by
          cases h : renderIntChars i with
          | nil => exact absurd h this
          | cons c tl => simp
        simp only [sizeJ, renderJson]
        omega
      | str s =>
        simp only [sizeJ, renderJson, renderStringChars]
        simp only [List.length_cons, List.length_append]
        omega
      | arr es =>
        cases es with
        | nil => simp [sizeJ, sizeArr, renderJson]
        | cons e tl =>
          simp only [sizeJ, sizeArr] at hv ⊢
          have he : sizeJ e ≤ 2 * (renderJson e).length := by
            apply ihV
            have := sizeJ_pos e
            omega
          have htl : sizeArr tl ≤ 2 * (renderArrTail tl).length := by
            apply ihA
            have := sizeJ_pos e
            omega
          rw [renderJson_arr_eq]
          simp only [renderArrBody, List.length_cons, List.length_append]
          omega
      | obj ms =>
        cases ms with
        | nil => simp [sizeJ, sizeObj, renderJson]
        | cons m tl =>
          obtain ⟨k, v'⟩ := m
          simp only [sizeJ, sizeObj] at hv ⊢
          have he : sizeJ v' ≤ 2 * (renderJson v').length := by
            apply ihV
            have := sizeJ_pos v'
            omega
          have htl : sizeObj tl ≤ 2 * (renderObjTail tl).length := by
            apply ihO
            have := sizeJ_pos v'
            omega
          rw [renderJson_obj_eq]
          simp only [renderObjBody, renderMember, List.length_cons, List.length_append]
          omega
    refine ⟨hval, ?_, ?_⟩
    · intro es hes
      cases es with
      | nil => simp [sizeArr]
      | cons e tl =>
        simp only [sizeArr] at hes ⊢
        have he : sizeJ e ≤ 2 * (renderJson e).length := by
          apply hval
          have h1 := sizeJ_pos e
          omega
        have htl : sizeArr tl ≤ 2 * (renderArrTail tl).length := by
          apply ihA
          have := sizeJ_pos e
          omega
        simp only [renderArrTail, List.length_cons, List.length_append]
        omega
    · intro ms hms
      cases ms with
      | nil => simp [sizeObj]
      | cons m tl =>
        obtain ⟨k, v'⟩ := m
        simp only [sizeObj] at hms ⊢
        have he : sizeJ v' ≤ 2 * (renderJson v').length := by
          apply hval
          have := sizeJ_pos v'
          omega
        have htl : sizeObj tl ≤ 2 * (renderObjTail tl).length := by
          apply ihO
          have := sizeJ_pos v'
          omega
        simp only [renderObjTail, renderMember, List.length_cons, List.length_append]
        omega

theorem jsonLoads_dumps (v : Json) : jsonLoads (jsonDumps v) = some v := by
  unfold jsonLoads jsonDumps loadsChars
  have hmk : (String.mk (renderJson v)).data = renderJson v := rfl
  rw [hmk]
  have hsize : sizeJ v ≤ 2 * (renderJson v).length + 2 := by
    have := (sizeJ_le_render (sizeJ v)).1 v (Nat.le_refl _)
    omega
  have hgt : goodTail ([] : List Char) := by
    intro c hc
    simp at hc
  have hp := (pRender_all (2 * (renderJson v).length + 2)).1 v [] hgt hsize
  rw [List.append_nil] at hp
  rw [hp]
  rfl

theorem chainLoopE_cons (resp : String) (s : String → Except String (Option Json))
    (rest : List (String → Except String (Option Json))) :
    chainLoopE resp (s :: rest)
      = match s resp with
        | .error _ => chainLoopE resp rest
        | .ok (some (Json.obj ms)) =>
          if ms.isEmpty then chainLoopE resp rest else some (Json.obj ms)
        | .ok _ => chainLoopE resp rest := rfl

theorem chainLoopE_all_error (resp : String) :
    ∀ (strats : List (String → Except String (Option Json))),
      (∀ f ∈ strats, ∃ e, f resp = .error e) → chainLoopE resp strats = none := by
  intro strats
  induction strats with
  | nil => intro _; rfl
  | cons s rest ih =>
    intro h
    obtain ⟨e, he⟩ := h s (by simp)
    rw [chainLoopE_cons, he]
    exact ih (fun f hf => h f (by simp [hf]))

theorem chainLoopE_prefix_skip (resp : String) :
    ∀ (pre rest : List (String → Except String (Option Json))),
      (∀ f ∈ pre, ¬ acceptsE (f resp)) →
      chainLoopE resp (pre ++ rest) = chainLoopE resp rest := by
  intro pre
  induction pre with
  | nil => intro rest _; rfl
  | cons s pre' ih =>
    intro rest h
    have hs : ¬ acceptsE (s resp) := h s (by simp)
    have hrest := ih rest (fun f hf => h f (by simp [hf]))
    rw [List.cons_append, chainLoopE_cons]
    cases hsr : s resp with
    | error e => exact hrest
    | ok r =>
      cases r with
      | none => exact hrest
      | some v =>
        cases v with
        | obj ms =>
          by_cases hm : ms.isEmpty
          · simp only [hm, if_true]
            exact hrest
          · exact absurd ⟨ms, hsr, fun hnil => hm (by simp [hnil])⟩ hs
        | null => exact hrest
        | bool b => exact hrest
        | num n => exact hrest
        | str t => exact hrest
        | arr l => exact hrest

/-- **C4** — `parse` never raises: for every input, every assignment of
(possibly raising) strategies and every smart-retry body, the exception-model
`parse` returns `.ok`; a raising smart-retry body is caught and degrades to
`None`; and when every strategy raises (with no retry context) the overall
result degrades to `None`. -/
theorem claim_C4_parse_never_raises (resp : String)
    (strats : List (String → Except String (Option Json)))
    (isRetryCtx : Bool) (retryBody : Except String (Option Json)) :
    (∃ r, parseE resp strats isRetryCtx retryBody = .ok r)
      ∧ (∀ e, retryBody = .error e → smartRetryE retryBody = .ok none)
      ∧ ((∀ f ∈ strats, ∃ e, f resp = .error e) → isRetryCtx = false →
          resp.isEmpty = false →
          parseE resp strats isRetryCtx retryBody = .ok none) := by
  refine ⟨?_, ?_, ?_⟩
  · unfold parseE
    by_cases h1 : resp.isEmpty
    · exact ⟨none, by simp [h1]⟩
    · cases hc : chainLoopE resp strats with
      | some v => exact ⟨some v, by simp [h1, hc]⟩
      | none =>
        cases hr : isRetryCtx with
        | false => exact ⟨none, by simp [h1, hc]⟩
        | true =>
          cases hb : retryBody with
          | error e => exact ⟨none, by simp [h1, hc, smartRetryE, pyTry, hb]⟩
          | ok r =>
            cases r with
            | none => exact ⟨none, by simp [h1, hc, smartRetryE, pyTry, hb]⟩
            | some v =>
              by_cases ht : jsonTruthy v
              · exact ⟨some v, by simp [h1, hc, smartRetryE, pyTry, hb, ht]⟩
              · exact ⟨none, by simp [h1, hc, smartRetryE, pyTry, hb, ht]⟩
  · intro e he
    rw [he]
    rfl
  · intro hall hr hemp
    unfold parseE
    rw [chainLoopE_all_error resp strats hall, hr]
    simp [hemp]

theorem claim_C4_witness :
    parseE "abc" [fun _ => .error "boom"] false (.ok none) = .ok none := by
  refine (claim_C4_parse_never_raises "abc" [fun _ => .error "boom"] false (.ok none)).2.2
    ?_ rfl rfl
  intro f hf
  rw [List.mem_singleton] at hf
  exact ⟨"boom", by rw [hf]⟩

/-- **C5 counterexample** — the loop's acceptance test is
`if result and isinstance(result, dict)`, and an empty dict is falsy in
Python: with a first strategy returning the empty mapping and a second
returning a one-key mapping, `parse` skips the empty mapping and returns the
second strategy's result, contradicting the claim that the first strategy
returning a mapping — "including an empty mapping" — is returned. -/
theorem claim_C5_counterexample :
    parseE "x" [stratEmptyDict, stratAB] false (.ok none)
        = .ok (some (Json.obj [("a", Json.num 1)]))
      ∧ ¬ parseE "x" [stratEmptyDict, stratAB] false (.ok none)
          = .ok (some (Json.obj [])) := by
  constructor
  · rfl
  · intro h
    have h1 : parseE "x" [stratEmptyDict, stratAB] false (.ok none)
        = .ok (some (Json.obj [("a", Json.num 1)])) := rfl
    rw [h1] at h
    simp at h

/-- **C5 (amended)** — the chain executes strategies strictly in order: the
first strategy returning a NON-EMPTY mapping is accepted, no later strategy
affects the result; a strategy that throws, returns nothing, or returns an
empty mapping is skipped and the chain continues identically. -/
theorem claim_C5_first_truthy (resp : String)
    (pre : List (String → Except String (Option Json)))
    (s : String → Except String (Option Json))
    (post : List (String → Except String (Option Json)))
    (ms : List (String × Json))
    (hresp : resp.isEmpty = false)
    (hpre : ∀ f ∈ pre, ¬ acceptsE (f resp))
    (hs : s resp = .ok (some (Json.obj ms))) (hms : ms ≠ [])
    (isR : Bool) (rb : Except String (Option Json)) :
    parseE resp (pre ++ s :: post) isR rb = .ok (some (Json.obj ms))
      ∧ chainLoopE resp (pre ++ s :: post) = some (Json.obj ms)
      ∧ (∀ (e : String) (rest : List (String → Except String (Option Json))),
          chainLoopE resp ((fun _ => .error e) :: rest) = chainLoopE resp rest
            ∧ chainLoopE resp ((fun _ => .ok none) :: rest) = chainLoopE resp rest
            ∧ chainLoopE resp ((fun _ => .ok (some (Json.obj []))) :: rest)
                = chainLoopE resp rest) := by
  have hmse : ms.isEmpty = false := by
    cases ms with
    | nil => exact absurd rfl hms
    | cons a t => rfl
  have hloop : chainLoopE resp (pre ++ s :: post) = some (Json.obj ms) := by
    rw [chainLoopE_prefix_skip resp pre (s :: post) hpre, chainLoopE_cons, hs]
    simp [hmse]
  refine ⟨?_, hloop, fun e rest => ⟨rfl, rfl, rfl⟩⟩
  unfold parseE
  rw [hloop]
  simp [hresp]

theorem claim_C5_witness :
    parseE "x" [fun _ => .error "boom", stratAB] false (.ok none)
      = .ok (some (Json.obj [("a", Json.num 1)])) := by
  refine (claim_C5_first_truthy "x" [fun _ => .error "boom"] stratAB [] [("a", Json.num 1)]
    rfl ?_ rfl (by simp) false (.ok none)).1
  intro f hf
  rw [List.mem_singleton] at hf
  subst hf
  rintro ⟨ms, hcontra, _⟩
  simp at hcontra

/-- **C8** — round trip: `save_result` for agent `agentName` followed by
`load_result` for the same agent returns a value structurally equal to the
saved mapping, for every key (output dir and agent name), every `Json`
value, over any prior file-system state. -/
theorem claim_C8_checkpoint_roundtrip (outputDir agentName : String) (v : Json)
    (fs : String → Option String) :
    loadResult outputDir agentName (saveResult outputDir agentName v fs).2 = some v := by
  unfold loadResult saveResult
  simp [jsonLoads_dumps]

/-- **C7 counterexample** — on the scenario input, `parse` returns the
mapping with both values as strings, "1" and quote-x-quote, not the claimed
mapping with the number 1 and the bare string "x". -/
theorem claim_C7_counterexample :
    uparse c7Input "unknown" = some c7Actual
      ∧ ¬ uparse c7Input "unknown" = some c7Claimed := by
  constructor
  · rfl
  · intro h
    have h1 : uparse c7Input "unknown" = some c7Actual := rfl
    rw [h1] at h
    simp [c7Actual, c7Claimed] at h

/-- **C7 (amended)** — on the scenario input the first two strategies fail
(`_extract_json_block` finds no fenced or balanced block it can parse,
`json.loads` rejects the malformed text), and the light-repair strategy
`_fix_json_format` produces the mapping with key a bound to the STRING "1"
and key b bound to the three-character string quote-x-quote; `parse` returns
exactly that mapping. -/
theorem claim_C7_light_repair :
    fixJsonFormat c7Input.data = some c7Actual
      ∧ uparse c7Input "unknown" = some c7Actual
      ∧ extractJsonBlock c7Input.data = none
      ∧ directJsonParse c7Input.data = none :=
  ⟨rfl, rfl, rfl, rfl⟩

theorem parseLoop_cons (s : List Char → Option Json)
    (rest : List (List Char → Option Json)) (resp : List Char) :
    parseLoop (s :: rest) resp
      = match s resp with
        | some (Json.obj ms) =>
          if ms.isEmpty then parseLoop rest resp else some (Json.obj ms)
        | _ => parseLoop rest resp := rfl

theorem parseLoop_cons_accept (s : List Char → Option Json)
    (rest : List (List Char → Option Json)) (resp : List Char)
    (kvs : List (String × Json))
    (h : s resp = some (Json.obj kvs)) (hk : kvs ≠ []) :
    parseLoop (s :: rest) resp = some (Json.obj kvs) := by
  have hk2 : kvs.isEmpty = false := by
    cases kvs with
    | nil => exact absurd rfl hk
    | cons a t => rfl
  rw [parseLoop_cons, h]
  simp [hk2]

theorem parseLoop_cons_skip (s : List Char → Option Json)
    (rest : List (List Char → Option Json)) (resp : List Char)
    (h : ∀ kvs, s resp = some (Json.obj kvs) → kvs = []) :
    parseLoop (s :: rest) resp = parseLoop rest resp := by
  rw [parseLoop_cons]
  cases hsr : s resp with
  | none => rfl
  | some v =>
    cases v with
    | obj ms =>
      have hnil : ms = [] := h ms hsr
      subst hnil
      rfl
    | null => rfl
    | bool b => rfl
    | num n => rfl
    | str t => rfl
    | arr l => rfl

theorem parseLoop_accepts (resp : List Char) :
    ∀ (strats : List (List Char → Option Json)),
      (∃ s ∈ strats, ∃ kvs, s resp = some (Json.obj kvs) ∧ kvs ≠ []) →
      ∃ kvs, parseLoop strats resp = some (Json.obj kvs) ∧ kvs ≠ [] := by
  intro strats
  induction strats with
  | nil =>
    rintro ⟨s, hs, _⟩
    simp at hs
  | cons s rest ih =>
    rintro ⟨t, ht, kvs, htk, hkne⟩
    by_cases hacc : ∃ ms, s resp = some (Json.obj ms) ∧ ms ≠ []
    · obtain ⟨ms, hms, hmne⟩ := hacc
      exact ⟨ms, parseLoop_cons_accept s rest resp ms hms hmne, hmne⟩
    · push_neg at hacc
      rw [parseLoop_cons_skip s rest resp hacc]
      rcases List.mem_cons.mp ht with heq | hmem
      · subst heq
        exact absurd (hacc kvs htk) hkne
      · exact ih ⟨t, hmem, kvs, htk, hkne⟩

theorem extractFallbackFromText_shape (cs : List Char) :
    ∃ extras, extractFallbackFromText cs
      = some (Json.obj (fallbackBaseFields ++ extras)) :=
  ⟨_, rfl⟩

theorem fallback_fields_nonempty (extras : List (String × Json)) :
    fallbackBaseFields ++ extras ≠ [] := by
  simp [fallbackBaseFields]

theorem fallback_fields_keys (extras : List (String × Json)) :
    ((fallbackBaseFields ++ extras).map Prod.fst).take 4
      = ["test_approach", "coverage_matrix", "priorities",
          "resource_estimation"] := rfl

theorem extractFallbackFromText_mem (context : String) :
    extractFallbackFromText ∈ strategiesFor context := by
  unfold strategiesFor
  split_ifs <;> simp [defaultStrategies]

/-- **C10** — for every non-empty input string and EVERY context, `parse`
returns a non-None, non-empty mapping: the final fallback strategy
`_extract_fallback_from_text`, present at the end of every context's chain,
unconditionally returns the pre-populated default record whose first four
keys are test_approach, coverage_matrix, priorities and resource_estimation;
and on the empty string `parse` returns `None`. -/
theorem claim_C10_nonempty_default (resp context : String)
    (hne : resp.isEmpty = false) :
    (∃ kvs, uparse resp context = some (Json.obj kvs) ∧ kvs ≠ [])
      ∧ uparse "" context = none
      ∧ (∃ extras, extractFallbackFromText resp.data
            = some (Json.obj (fallbackBaseFields ++ extras))
          ∧ ((fallbackBaseFields ++ extras).map Prod.fst).take 4
              = ["test_approach", "coverage_matrix", "priorities",
                  "resource_estimation"]) := by
  obtain ⟨extras, hfb⟩ := extractFallbackFromText_shape resp.data
  obtain ⟨kvs, hl, hlne⟩ := parseLoop_accepts resp.data (strategiesFor context)
    ⟨extractFallbackFromText, extractFallbackFromText_mem context,
      fallbackBaseFields ++ extras, hfb, fallback_fields_nonempty extras⟩
  refine ⟨⟨kvs, ?_, hlne⟩, rfl, extras, hfb, fallback_fields_keys extras⟩
  unfold uparse
  rw [hl]
  simp [hne]

theorem claim_C10_witness :
    ∃ kvs, uparse "hello" "test_design" = some (Json.obj kvs) ∧ kvs ≠ [] :=
  (claim_C10_nonempty_default "hello" "test_design" rfl).1
